import Mathlib

/-!
Verification development for the multitalk-ui backend.

This file gives a shallow embedding of the parts of the backend that the
checked specification talks about:

* `services/workflow_service.py` — the template engine (`build_workflow`,
  `validate_workflow`, `get_template_parameters`).  Python strings are
  modelled as `List Char`; `str.replace` is modelled by `replaceAll`,
  `json.dumps` (default separators, `ensure_ascii=True`) by `pyDumps`,
  `json.loads` (restricted to the documents the service produces: objects,
  arrays, strings with the simple escapes, integers, booleans, null) by
  `jsonLoads`, and `re.findall` on the placeholder pattern by
  `findTokenNames`.
* `api/video_jobs.py` / `api/image_jobs.py` — the completion handlers,
  with the external collaborators (storage uploads, thumbnail service,
  Google Drive) abstracted as oracles recording which calls were made.
* `services/storage_service.py` — the storage-key computations.
* `core/cache.py` together with `services/video_job_service.py` — the feed
  cache.  The TTL semantics of the third-party `cachetools.TTLCache` is
  taken from the specification sentence "an entry is never returned once
  `now - insertedAt > TTL`".

Definitions come first, then the theorems settling the claims.
-/

namespace Multitalk

/-! ### Characters and basic string utilities

Python strings are `List Char`.  Literal braces are written via
`Char.ofNat` throughout. -/

/-- The character `\x7b` (left curly brace). -/
def lb : Char := Char.ofNat 123

/-- The character `\x7d` (right curly brace). -/
def rb : Char := Char.ofNat 125

/-- Fuel-driven worker for `replaceAll`.  One unit of fuel is spent per
character position examined, so `s.length` fuel always suffices for a
non-empty pattern. -/
def repAux : Nat → List Char → List Char → List Char → List Char
  | 0, _, _, s => s
  | fuel+1, pat, rep, s =>
    match s with
    | [] => []
    | c :: cs =>
      if pat.isPrefixOf (c :: cs) then
        rep ++ repAux fuel pat rep ((c :: cs).drop pat.length)
      else
        c :: repAux fuel pat rep cs

/-- Python `s.replace(pat, rep)`: replaces all non-overlapping occurrences
left to right, never rescanning the replacement text.  All call sites in
the modelled code use a non-empty pattern. -/
def replaceAll (pat rep s : List Char) : List Char :=
  repAux s.length pat rep s

/-- Whether `pat` occurs as a contiguous substring of `s`. -/
def hasSub (pat : List Char) : List Char → Bool
  | [] => pat.isEmpty
  | c :: cs => pat.isPrefixOf (c :: cs) || hasSub pat cs

/-! ### The placeholder scanner

`re.findall(r'\{\{([^}]+)\}\}', s)` from `workflow_service.py`: at each
position, try to match two left braces, a non-empty run of non-`}`
characters (the greedy `[^}]+` admits no backtracking here because the
run is always followed by the first `}`), then two right braces.  On
success the scan resumes after the match; on failure at the next
character. -/
def scanAux : Nat → List Char → List (List Char)
  | 0, _ => []
  | _+1, [] => []
  | fuel+1, c :: cs =>
    if c = lb then
      match cs with
      | c2 :: rest =>
        if c2 = lb then
          let name := rest.takeWhile (fun d => d ≠ rb)
          match rest.dropWhile (fun d => d ≠ rb) with
          | d1 :: d2 :: rest2 =>
            if d1 = rb ∧ d2 = rb ∧ name ≠ [] then name :: scanAux fuel rest2
            else scanAux fuel cs
          | _ => scanAux fuel cs
        else scanAux fuel cs
      | [] => []
    else scanAux fuel cs

/-- All placeholder names found in `s`, in scan order (the capture groups
of `re.findall(r'\{\{([^}]+)\}\}', s)`). -/
def findTokenNames (s : List Char) : List (List Char) :=
  scanAux (s.length + 1) s

/-- The full matched token for a name: the text `{{name}}`. -/
def fullToken (name : List Char) : List Char :=
  lb :: lb :: name ++ [rb, rb]

/-! ### The JSON document model

`Json` models the Python dictionaries the workflow service manipulates:
objects keep field order (Python 3.7+ dict order), numbers are integers
(every numeric literal in the repository templates is an integer; floats
are outside the model), and strings are `List Char`. -/

mutual
inductive Json where
  | jnull
  | jbool (b : Bool)
  | jint (n : Int)
  | jstr (s : List Char)
  | jarr (xs : JsonArr)
  | jobj (fs : JsonObj)
  deriving DecidableEq
inductive JsonArr where
  | anil
  | acons (hd : Json) (tl : JsonArr)
  deriving DecidableEq
inductive JsonObj where
  | onil
  | ocons (key : List Char) (val : Json) (tl : JsonObj)
  deriving DecidableEq
end

/-- Decimal digit to character. -/
def digitChar (d : Nat) : Char := Char.ofNat (48 + d)

/-- Fuel-driven decimal rendering of a positive natural number. -/
def natCharsAux : Nat → Nat → List Char
  | 0, _ => []
  | fuel+1, n => if n = 0 then [] else natCharsAux fuel (n / 10) ++ [digitChar (n % 10)]

/-- Python `str(n)` for a natural number. -/
def natChars (n : Nat) : List Char := if n = 0 then ['0'] else natCharsAux n n

/-- Python `str(n)` (equally `json.dumps(n)`) for an integer. -/
def intChars : Int → List Char
  | .ofNat n => natChars n
  | .negSucc m => '-' :: natChars (m + 1)

/-- Hexadecimal digit to character, lowercase as CPython prints it. -/
def hexDigit (d : Nat) : Char := if d < 10 then Char.ofNat (48 + d) else Char.ofNat (87 + d)

/-- A `\uXXXX` escape for a code unit. -/
def uEsc4 (n : Nat) : List Char :=
  ['\\', 'u', hexDigit (n / 4096 % 16), hexDigit (n / 256 % 16), hexDigit (n / 16 % 16),
    hexDigit (n % 16)]

/-- The `ensure_ascii` escape of one character in `json.dumps`: the short
escapes for quote, backslash, newline, carriage return, tab, backspace and
form feed; printable ASCII kept literal; everything else `\uXXXX` (with a
surrogate pair above the BMP). -/
def escChar (c : Char) : List Char :=
  if c = '"' then ['\\', '"']
  else if c = '\\' then ['\\', '\\']
  else if c = '\n' then ['\\', 'n']
  else if c = '\r' then ['\\', 'r']
  else if c = '\t' then ['\\', 't']
  else if c = Char.ofNat 8 then ['\\', 'b']
  else if c = Char.ofNat 12 then ['\\', 'f']
  else if 32 ≤ c.toNat ∧ c.toNat ≤ 126 then [c]
  else if c.toNat < 65536 then uEsc4 c.toNat
  else uEsc4 (55296 + (c.toNat - 65536) / 1024) ++ uEsc4 (56320 + (c.toNat - 65536) % 1024)

/-- `ensure_ascii` escaping of a whole string body. -/
def escJson : List Char → List Char
  | [] => []
  | c :: cs => escChar c ++ escJson cs

mutual
/-- `json.dumps(v)` with CPython defaults: separators `', '` and `': '`,
`ensure_ascii=True`, insertion-ordered keys. -/
def pyDumps : Json → List Char
  | .jnull => "null".data
  | .jbool true => "true".data
  | .jbool false => "false".data
  | .jint n => intChars n
  | .jstr s => '"' :: escJson s ++ ['"']
  | .jarr xs => '[' :: pyDumpsArr xs ++ [']']
  | .jobj fs => lb :: pyDumpsObj fs ++ [rb]
/-- The element list of an array, joined with `', '`. -/
def pyDumpsArr : JsonArr → List Char
  | .anil => []
  | .acons h t => pyDumps h ++ pyDumpsArrRest t
/-- Trailing array elements, each preceded by `', '`. -/
def pyDumpsArrRest : JsonArr → List Char
  | .anil => []
  | .acons h t => ',' :: ' ' :: pyDumps h ++ pyDumpsArrRest t
/-- The field list of an object, joined with `', '`, each field rendered
as `"key": value`. -/
def pyDumpsObj : JsonObj → List Char
  | .onil => []
  | .ocons k v t => '"' :: escJson k ++ '"' :: ':' :: ' ' :: pyDumps v ++ pyDumpsObjRest t
/-- Trailing object fields, each preceded by `', '`. -/
def pyDumpsObjRest : JsonObj → List Char
  | .onil => []
  | .ocons k v t =>
    ',' :: ' ' :: '"' :: escJson k ++ '"' :: ':' :: ' ' :: pyDumps v ++ pyDumpsObjRest t
end

/-! ### Parameter substitution (`build_workflow`)

`build_workflow` serializes the loaded template with `json.dumps` and then,
for each `(key, value)` of the parameter dict in iteration order, replaces
every occurrence of the quoted placeholder `"{{KEY}}"` according to the
value's type; afterwards it rewrites four Python-boolean literal patterns,
scans for remaining `{{...}}` tokens, and parses the result back. -/

/-- A parameter value as `build_workflow` distinguishes them: `bool` is
tested first, then `str`, then `int`/`float` (integers in this model),
and any other type is stringified (`pother` carries `str(value)`). -/
inductive PValue where
  | pbool (b : Bool)
  | pstr (s : List Char)
  | pint (n : Int)
  | pother (s : List Char)
  deriving DecidableEq

/-- The manual escaping applied to string parameter values: the chain
`value.replace('\\','\\\\').replace('"','\\"').replace('\n','\\n')`
`.replace('\r','\\r').replace('\t','\\t')`. -/
def pyEscape (s : List Char) : List Char :=
  replaceAll ['\t'] ['\\', 't']
    (replaceAll ['\r'] ['\\', 'r']
      (replaceAll ['\n'] ['\\', 'n']
        (replaceAll ['"'] ['\\', '"']
          (replaceAll ['\\'] ['\\', '\\'] s))))

/-- The replacement text substituted for the quoted placeholder, by value
type, exactly as in `build_workflow`: booleans become lowercase literals,
strings are escaped and re-quoted, numbers are unquoted, anything else is
stringified and quoted (without escaping). -/
def renderValue : PValue → List Char
  | .pbool true => "true".data
  | .pbool false => "false".data
  | .pstr s => '"' :: pyEscape s ++ ['"']
  | .pint n => intChars n
  | .pother s => '"' :: s ++ ['"']

/-- The quoted placeholder pattern `"{{key}}"` (quotes included). -/
def quotedPh (k : List Char) : List Char :=
  '"' :: lb :: lb :: (k ++ [rb, rb, '"'])

/-- The parameter loop of `build_workflow`: one `str.replace` per
parameter, in dict iteration order. -/
def applyParams (s : List Char) : List (List Char × PValue) → List Char
  | [] => s
  | (k, v) :: ps => applyParams (replaceAll (quotedPh k) (renderValue v) s) ps

/-- The four "fix any remaining Python boolean literals" rewrites, in
source order: `': True,'`, `': False,'`, `': True}'`, `': False}'`. -/
def fixupPats : List (List Char × List Char) :=
  [(": True,".data, ": true,".data),
   (": False,".data, ": false,".data),
   (": True".data ++ [rb], ": true".data ++ [rb]),
   (": False".data ++ [rb], ": false".data ++ [rb])]

/-- Apply the four boolean-literal rewrites. -/
def applyFixups (s : List Char) : List Char :=
  fixupPats.foldl (fun acc pr => replaceAll pr.1 pr.2 acc) s

/-! ### `json.loads`, restricted to the documents the service produces -/

/-- JSON whitespace. -/
def isJsonWs (c : Char) : Bool := c = ' ' || c = '\t' || c = '\n' || c = '\r'

/-- Skip leading JSON whitespace. -/
def skipWs (s : List Char) : List Char := s.dropWhile isJsonWs

/-- Decode one short escape character (`\uXXXX` is outside the modelled
sublanguage; the documents produced by `pyDumps` on the template class we
reason about never contain it). -/
def unescChar (c : Char) : Option Char :=
  if c = '"' then some '"'
  else if c = '\\' then some '\\'
  else if c = '/' then some '/'
  else if c = 'n' then some '\n'
  else if c = 'r' then some '\r'
  else if c = 't' then some '\t'
  else if c = 'b' then some (Char.ofNat 8)
  else if c = 'f' then some (Char.ofNat 12)
  else none

/-- Parse a string body after the opening quote, strict about raw control
characters as `json.loads` is by default. -/
def parseStrBody : List Char → Option (List Char × List Char)
  | [] => none
  | c :: cs =>
    if c = '"' then some ([], cs)
    else if c = '\\' then
      match cs with
      | [] => none
      | e :: cs2 =>
        match unescChar e with
        | some d =>
          match parseStrBody cs2 with
          | some (body, rest) => some (d :: body, rest)
          | none => none
        | none => none
    else if c.toNat < 32 then none
    else
      match parseStrBody cs with
      | some (body, rest) => some (c :: body, rest)
      | none => none

/-- Fold a digit run into its value. -/
def digitsVal (l : List Char) : Nat :=
  l.foldl (fun a c => a * 10 + (c.toNat - 48)) 0

/-- Parse an integer literal (an optional minus sign and a digit run). -/
def parseIntTok : List Char → Option (Int × List Char)
  | [] => none
  | c :: cs =>
    if c = '-' then
      match cs.takeWhile Char.isDigit with
      | [] => none
      | ds => some (-(digitsVal ds : Int), cs.dropWhile Char.isDigit)
    else
      match (c :: cs).takeWhile Char.isDigit with
      | [] => none
      | ds => some ((digitsVal ds : Int), (c :: cs).dropWhile Char.isDigit)

mutual
/-- Parse one JSON value.  Fuel bounds the nesting of recursive calls;
`jsize` fuel suffices for a document produced by `pyDumps`. -/
def parseVal : Nat → List Char → Option (Json × List Char)
  | 0, _ => none
  | fuel+1, s =>
    match skipWs s with
    | [] => none
    | c :: cs =>
      if c = lb then
        match skipWs cs with
        | [] => none
        | d :: ds =>
          if d = rb then some (.jobj .onil, ds)
          else
            match parseObjItems fuel (d :: ds) with
            | some (fs, rest) => some (.jobj fs, rest)
            | none => none
      else if c = '[' then
        match skipWs cs with
        | [] => none
        | d :: ds =>
          if d = ']' then some (.jarr .anil, ds)
          else
            match parseArrItems fuel (d :: ds) with
            | some (xs, rest) => some (.jarr xs, rest)
            | none => none
      else if c = '"' then
        match parseStrBody cs with
        | some (body, rest) => some (.jstr body, rest)
        | none => none
      else if c = 't' then
        match cs with
        | 'r' :: 'u' :: 'e' :: rest => some (.jbool true, rest)
        | _ => none
      else if c = 'f' then
        match cs with
        | 'a' :: 'l' :: 's' :: 'e' :: rest => some (.jbool false, rest)
        | _ => none
      else if c = 'n' then
        match cs with
        | 'u' :: 'l' :: 'l' :: rest => some (.jnull, rest)
        | _ => none
      else
        match parseIntTok (c :: cs) with
        | some (n, rest) => some (.jint n, rest)
        | none => none
/-- Parse the elements of a non-empty array, positioned at the first
element. -/
def parseArrItems : Nat → List Char → Option (JsonArr × List Char)
  | 0, _ => none
  | fuel+1, s =>
    match parseVal fuel s with
    | some (v, rest) =>
      match skipWs rest with
      | [] => none
      | e :: es =>
        if e = ',' then
          match parseArrItems fuel (skipWs es) with
          | some (t, rest2) => some (.acons v t, rest2)
          | none => none
        else if e = ']' then some (.acons v .anil, es)
        else none
    | none => none
/-- Parse the fields of a non-empty object, positioned at the first key's
opening quote. -/
def parseObjItems : Nat → List Char → Option (JsonObj × List Char)
  | 0, _ => none
  | fuel+1, s =>
    match s with
    | [] => none
    | c :: cs =>
      if c = '"' then
        match parseStrBody cs with
        | some (key, rest) =>
          match skipWs rest with
          | [] => none
          | d :: ds =>
            if d = ':' then
              match parseVal fuel ds with
              | some (v, rest2) =>
                match skipWs rest2 with
                | [] => none
                | e :: es =>
                  if e = ',' then
                    match parseObjItems fuel (skipWs es) with
                    | some (t, rest3) => some (.ocons key v t, rest3)
                    | none => none
                  else if e = rb then some (.ocons key v .onil, es)
                  else none
              | none => none
            else none
        | none => none
      else none
end

/-- `json.loads(s)` on the modelled sublanguage: parse one value and
require the remainder to be whitespace. -/
def jsonLoads (s : List Char) : Option Json :=
  match parseVal (s.length + 1) s with
  | some (v, rest) => if (skipWs rest).isEmpty then some v else none
  | none => none

/-! ### `build_workflow`, `get_template_parameters`, `validate_workflow` -/

/-- Errors of `build_workflow` after the template has been loaded,
structured instead of formatted into message strings. -/
inductive BuildError where
  | unresolvedPlaceholders (tokens : List (List Char))
  | invalidJson
  deriving DecidableEq

/-- `build_workflow(template_name, parameters)` after the template has
been loaded (template loading is filesystem I/O and outside the model):
serialize, substitute each parameter, rewrite the boolean-literal
patterns, fail on remaining `{{...}}` tokens, and parse back. -/
def buildWorkflow (template : Json) (parameters : List (List Char × PValue)) :
    Except BuildError Json :=
  let s1 := applyParams (pyDumps template) parameters
  let s2 := applyFixups s1
  match findTokenNames s2 with
  | [] =>
    match jsonLoads s2 with
    | some w => .ok w
    | none => .error .invalidJson
  | t :: ts => .error (.unresolvedPlaceholders ((t :: ts).map fullToken))

/-- First-occurrence de-duplication, standing in for Python's
`list(set(...))` (which loses order; only the underlying set matters to
callers). -/
def dedup : List (List Char) → List (List Char)
  | [] => []
  | x :: xs => if x ∈ dedup xs then dedup xs else x :: dedup xs

/-- `get_template_parameters` after the template has been loaded: scan the
serialized template for `{{NAME}}` tokens and de-duplicate. -/
def getTemplateParameters (template : Json) : List (List Char) :=
  dedup (findTokenNames (pyDumps template))

/-- Errors of `validate_workflow`, structured; each node error carries the
offending node id exactly as the formatted messages do. -/
inductive ValidationError where
  | notADictionary
  | emptyWorkflow
  | nodeNotDictionary (nodeId : List Char)
  | missingClassType (nodeId : List Char)
  | missingInputs (nodeId : List Char)
  deriving DecidableEq

/-- Key membership in an object (`key in node_data`). -/
def hasKey (key : List Char) : JsonObj → Bool
  | .onil => false
  | .ocons k _ t => k = key || hasKey key t

/-- The per-node loop of `validate_workflow`, returning the first
violation in field order. -/
def checkNodes : JsonObj → Option ValidationError
  | .onil => none
  | .ocons nodeId nodeData t =>
    match nodeData with
    | .jobj fields =>
      if hasKey "class_type".data fields then
        if hasKey "inputs".data fields then checkNodes t
        else some (.missingInputs nodeId)
      else some (.missingClassType nodeId)
    | _ => some (.nodeNotDictionary nodeId)

/-- `validate_workflow(workflow)`: reject non-dictionaries, reject the
empty dictionary, then check each node for being a dictionary carrying
`class_type` and `inputs` keys.  `none` means valid. -/
def validateWorkflow : Json → Option ValidationError
  | .jobj .onil => some .emptyWorkflow
  | .jobj (.ocons k v t) => checkNodes (.ocons k v t)
  | _ => some .notADictionary

/-! ### The specification-side structural substitution

Section 4.1 of the specification states that the serialized-text
substitution is equivalent to a structural tree walk that replaces each
placeholder string leaf by a typed value.  `substTree` is that tree walk,
written from the specification's words; the correspondence theorems below
compare `buildWorkflow` against it. -/

/-- The placeholder string `{{k}}` as a string leaf content. -/
def phChars (k : List Char) : List Char := lb :: lb :: k ++ [rb, rb]

/-- The tree node a parameter value denotes: booleans and integers keep
their type, strings stay strings (`pother` is also stringified). -/
def valueNode : PValue → Json
  | .pbool b => .jbool b
  | .pstr s => .jstr s
  | .pint n => .jint n
  | .pother s => .jstr s

mutual
/-- Replace every string leaf `{{k}}` by the value node for `v`. -/
def substK (k : List Char) (v : PValue) : Json → Json
  | .jstr s => if s = phChars k then valueNode v else .jstr s
  | .jarr xs => .jarr (substKArr k v xs)
  | .jobj fs => .jobj (substKObj k v fs)
  | other => other
/-- `substK` on array elements. -/
def substKArr (k : List Char) (v : PValue) : JsonArr → JsonArr
  | .anil => .anil
  | .acons h t => .acons (substK k v h) (substKArr k v t)
/-- `substK` on object fields (keys are not substituted). -/
def substKObj (k : List Char) (v : PValue) : JsonObj → JsonObj
  | .onil => .onil
  | .ocons key val t => .ocons key (substK k v val) (substKObj k v t)
end

/-- The structural walk over a whole parameter list, one key at a time in
iteration order. -/
def substTree (ps : List (List Char × PValue)) (t : Json) : Json :=
  ps.foldl (fun u kv => substK kv.1 kv.2 u) t

/-- Recognize a placeholder-shaped string `{{k}}` and extract its name
(non-empty, free of `}`). -/
def phKey? (s : List Char) : Option (List Char) :=
  match s with
  | c1 :: c2 :: rest =>
    if c1 = lb ∧ c2 = lb ∧ rest.length ≥ 3 ∧ rest.drop (rest.length - 2) = [rb, rb] ∧
        (rest.take (rest.length - 2)).all (fun d => d ≠ rb) then
      some (rest.take (rest.length - 2))
    else none
  | _ => none

mutual
/-- The placeholder names of all placeholder-shaped string leaves, in
serialization order. -/
def phList : Json → List (List Char)
  | .jstr s =>
    match phKey? s with
    | some k => [k]
    | none => []
  | .jarr xs => phListArr xs
  | .jobj fs => phListObj fs
  | _ => []
/-- `phList` on array elements. -/
def phListArr : JsonArr → List (List Char)
  | .anil => []
  | .acons h t => phList h ++ phListArr t
/-- `phList` on object fields. -/
def phListObj : JsonObj → List (List Char)
  | .onil => []
  | .ocons _ v t => phList v ++ phListObj t
end

/-! ### Wellformedness of the template class

The correctness theorems about `buildWorkflow` quantify over the class of
templates in which every `{{...}}` token occurrence stands as an entire
quoted string value (the class singled out by the corrected round-trip
claim), with printable-or-simply-escapable string contents. -/

/-- Characters that `json.dumps` keeps literal: printable ASCII other
than quote and backslash. -/
def plainChar (c : Char) : Bool :=
  decide (32 ≤ c.toNat) && decide (c.toNat ≤ 126) && c ≠ '"' && c ≠ '\\'

/-- Characters allowed in modelled string contents: literal printables
plus the five simply-escaped characters. -/
def goodChar (c : Char) : Bool :=
  plainChar c || c = '"' || c = '\\' || c = '\n' || c = '\r' || c = '\t'

/-- Characters allowed in placeholder names: literal printables that are
not braces (matching the spec's uppercase-alphanumeric-plus-underscore
naming, generalized to any printable brace-and-quote-free name). -/
def keyChar (c : Char) : Bool := plainChar c && c ≠ lb && c ≠ rb

/-- A usable placeholder name: non-empty and made of `keyChar`s. -/
def keyOkB (k : List Char) : Bool := !k.isEmpty && k.all keyChar

/-- A plain (non-placeholder) string content: good characters, no braces. -/
def plainStrB (s : List Char) : Bool := s.all (fun c => goodChar c && c ≠ lb && c ≠ rb)

mutual
/-- The template class: every string leaf is either exactly one quoted
placeholder with a usable name, or a brace-free string of good
characters; object keys are plain strings. -/
def wft : Json → Bool
  | .jnull => true
  | .jbool _ => true
  | .jint _ => true
  | .jstr s =>
    match phKey? s with
    | some k => keyOkB k
    | none => plainStrB s
  | .jarr xs => wftArr xs
  | .jobj fs => wftObj fs
/-- `wft` on array elements. -/
def wftArr : JsonArr → Bool
  | .anil => true
  | .acons h t => wft h && wftArr t
/-- `wft` on object fields. -/
def wftObj : JsonObj → Bool
  | .onil => true
  | .ocons k v t => plainStrB k && wft v && wftObj t
end

/-- A parameter list of the kind the corrected claims quantify over:
usable keys, and values that are booleans, integers, or brace-free good
strings. -/
def paramOk (kv : List Char × PValue) : Bool :=
  keyOkB kv.1 &&
    match kv.2 with
    | .pbool _ => true
    | .pint _ => true
    | .pstr s => plainStrB s
    | .pother _ => false

mutual
/-- Fuel bound for `parseVal`: the number of recursive parser calls needed
for a document produced by `pyDumps`. -/
def jsize : Json → Nat
  | .jarr xs => 1 + asize xs
  | .jobj fs => 1 + osize fs
  | _ => 1
/-- `jsize` for array tails. -/
def asize : JsonArr → Nat
  | .anil => 0
  | .acons h t => 1 + jsize h + asize t
/-- `jsize` for object tails. -/
def osize : JsonObj → Nat
  | .onil => 0
  | .ocons _ v t => 1 + jsize v + osize t
end

/-! ### The video completion handler (`api/video_jobs.py`)

External collaborators are oracles: `uploads i` is the result of the
`i`-th `storage_service.upload_video_from_url` call, `thumbnail` the
thumbnail service result, and the `drive*` fields the Google Drive
interactions.  The handler's observable effects are collected in a trace
so the theorems can speak about which side effects ran. -/

/-- The stored video job row, restricted to the fields the completion
handler reads or writes. -/
structure VideoJob where
  comfyJobId : String
  status : String
  outputVideoUrls : Option (List String)
  errorMessage : Option String
  thumbnailUrl : Option String
  durationSeconds : Option Int
  projectId : Option String
  updatedAtTick : Nat
  deriving DecidableEq

/-- `CompleteVideoJobPayload`. -/
structure CompleteVideoJobPayload where
  jobId : String
  status : String
  outputVideoUrls : Option (List String)
  errorMessage : Option String
  durationSeconds : Option Int
  thumbnailUrl : Option String
  deriving DecidableEq

/-- Python truthiness of an optional string (`None` and `''` are falsy). -/
def truthyStr : Option String → Bool
  | none => false
  | some s => !s.isEmpty

/-- Python truthiness of an optional list (`None` and `[]` are falsy). -/
def truthyList : Option (List String) → Bool
  | none => false
  | some l => !l.isEmpty

/-- `VideoJobService.complete_job`: the row update (status always,
`updated_at` always, the other fields only when truthy or present). -/
def completeJobUpdate (job : VideoJob) (p : CompleteVideoJobPayload) (now : Nat) : VideoJob :=
  { job with
    status := p.status
    updatedAtTick := now
    outputVideoUrls :=
      if truthyList p.outputVideoUrls then p.outputVideoUrls else job.outputVideoUrls
    errorMessage := if truthyStr p.errorMessage then p.errorMessage else job.errorMessage
    durationSeconds :=
      if p.durationSeconds.isSome then p.durationSeconds else job.durationSeconds
    thumbnailUrl := if truthyStr p.thumbnailUrl then p.thumbnailUrl else job.thumbnailUrl }

/-- Oracles for the completion call's external collaborators. -/
structure VideoCompletionEnv where
  uploads : Nat → Bool × Option String
  thumbnail : Bool × Option String
  driveFolder : Bool × Option String
  driveDownloadOk : Bool
  now : Nat

/-- The durability loop: for each ephemeral URL, the storage upload is
attempted; on success the durable URL is kept, on failure the original
ephemeral URL is kept. -/
def materializeUrls (urls : List String) (uploads : Nat → Bool × Option String) : List String :=
  (urls.zip (List.range urls.length)).map (fun ui =>
    let r := uploads ui.2
    if r.1 && truthyStr r.2 then r.2.getD ui.1 else ui.1)

/-- Observable side effects of one completion call. -/
structure VideoTrace where
  uploadCalls : Nat
  driveFolderName : Option String
  driveFiles : List String
  deriving DecidableEq

/-- The empty trace. -/
def noVideoTrace : VideoTrace := ⟨0, none, []⟩

/-- Result of the completion endpoint. -/
inductive VideoJobsResult where
  | ok (job : VideoJob)
  | httpError (code : Nat)
  deriving DecidableEq

/-- The Google Drive stage for videos: ensure the `AI-Videos` folder,
download the first durable URL, and upload it as `{job_id}.mp4`; the
returned list holds the filenames for which `upload_file` was invoked. -/
def videoDriveFiles (jobId : String) (env : VideoCompletionEnv) : List String :=
  if env.driveFolder.1 && truthyStr env.driveFolder.2 then
    if env.driveDownloadOk then [jobId ++ ".mp4"] else []
  else []

/-- The materialization branch of `complete_video_job` (runs only when the
payload reports success with a truthy URL list): uploads, thumbnail,
Drive replication.  Returns the rewritten payload and the trace. -/
def runVideoPipeline (projectId : Option String) (p : CompleteVideoJobPayload)
    (env : VideoCompletionEnv) : CompleteVideoJobPayload × VideoTrace :=
  if p.status = "completed" && truthyList p.outputVideoUrls then
    let urls := p.outputVideoUrls.getD []
    let sUrls := materializeUrls urls env.uploads
    let p1 := { p with outputVideoUrls := some sUrls }
    let p2 :=
      if sUrls.isEmpty then p1
      else if env.thumbnail.1 && truthyStr env.thumbnail.2 then
        { p1 with thumbnailUrl := env.thumbnail.2 }
      else p1
    let driveRan := truthyStr projectId && !sUrls.isEmpty
    (p2,
      { uploadCalls := urls.length
        driveFolderName := if driveRan then some "AI-Videos" else none
        driveFiles := if driveRan then videoDriveFiles p.jobId env else [] })
  else (p, noVideoTrace)

/-- `complete_video_job` (`PUT /video-jobs/{job_id}/complete`): look the
job up by renderer id, short-circuit when the stored status is
`completed`, otherwise run the pipeline and persist via `complete_job`. -/
def completeVideoJob (pathJobId : String) (existing : Option VideoJob)
    (payload0 : CompleteVideoJobPayload) (env : VideoCompletionEnv) :
    VideoJobsResult × VideoTrace :=
  let payload := { payload0 with jobId := pathJobId }
  match existing with
  | some j =>
    if j.status = "completed" then (.ok j, noVideoTrace)
    else
      let pt := runVideoPipeline j.projectId payload env
      (.ok (completeJobUpdate j pt.1 env.now), pt.2)
  | none =>
    let pt := runVideoPipeline none payload env
    (.httpError 404, pt.2)

/-! ### The image completion handler (`api/image_jobs.py`) -/

/-- The stored image job row, restricted to the fields the completion
handler reads or writes. -/
structure ImageJob where
  comfyJobId : String
  status : String
  outputImageUrls : Option (List String)
  errorMessage : Option String
  width : Option Int
  height : Option Int
  projectId : Option String
  deriving DecidableEq

/-- `CompleteImageJobPayload`. -/
structure CompleteImageJobPayload where
  jobId : String
  status : String
  outputImageUrls : Option (List String)
  errorMessage : Option String
  width : Option Int
  height : Option Int
  deriving DecidableEq

/-- Python truthiness of an optional integer (`None` and `0` are falsy,
as in the `if payload.width:` guards). -/
def truthyInt : Option Int → Bool
  | none => false
  | some n => n ≠ 0

/-- `ImageJobService.complete_job`: the row update. -/
def completeImageJobUpdate (job : ImageJob) (p : CompleteImageJobPayload) : ImageJob :=
  { job with
    status := p.status
    outputImageUrls :=
      if truthyList p.outputImageUrls then p.outputImageUrls else job.outputImageUrls
    width := if truthyInt p.width then p.width else job.width
    height := if truthyInt p.height then p.height else job.height
    errorMessage := if truthyStr p.errorMessage then p.errorMessage else job.errorMessage }

/-- Oracles for the image completion call's collaborators; the Drive
download result is per output index. -/
structure ImageCompletionEnv where
  uploads : Nat → Bool × Option String
  driveFolder : Bool × Option String
  driveDownloadOk : Nat → Bool

/-- Case-folded substring test used for extension sniffing. -/
def strHasSub (pat s : String) : Bool := hasSub pat.data s.data

/-- Lowercase a string (Python `str.lower` on the ASCII URLs involved). -/
def lowerStr (s : String) : String := ⟨s.data.map Char.toLower⟩

/-- Extension choice for a Drive image upload: `jpg` when the lowercased
URL contains `.jpg` or `.jpeg`, else `png`. -/
def imageExt (url : String) : String :=
  if strHasSub ".jpg" (lowerStr url) || strHasSub ".jpeg" (lowerStr url) then "jpg" else "png"

/-- Zero-padded rendering of `{:03d}`. -/
def pad3 (n : Nat) : String :=
  (if n < 10 then "00" else if n < 100 then "0" else "") ++ toString n

/-- Drive filename for the image at index `idx` (0-based) out of `count`
outputs: `{job_id}_{idx+1:03d}.{ext}` when there are several outputs,
else `{job_id}.{ext}`. -/
def imageDriveFilename (jobId : String) (count idx : Nat) (url : String) : String :=
  if count > 1 then jobId ++ "_" ++ pad3 (idx + 1) ++ "." ++ imageExt url
  else jobId ++ "." ++ imageExt url

/-- The Google Drive stage for images: ensure the `AI-Images` folder and
upload every durable output whose download succeeded, with indexed
filenames; the returned list holds the filenames passed to
`upload_file`. -/
def imageDriveFiles (jobId : String) (urls : List String) (env : ImageCompletionEnv) :
    List String :=
  if env.driveFolder.1 && truthyStr env.driveFolder.2 then
    (urls.zip (List.range urls.length)).foldl
      (fun acc ui =>
        if env.driveDownloadOk ui.2 then
          acc ++ [imageDriveFilename jobId urls.length ui.2 ui.1]
        else acc) []
  else []

/-- Observable side effects of one image completion call. -/
structure ImageTrace where
  uploadCalls : Nat
  driveFolderName : Option String
  driveFiles : List String
  deriving DecidableEq

/-- The empty image trace. -/
def noImageTrace : ImageTrace := ⟨0, none, []⟩

/-- Result of the image completion endpoint. -/
inductive ImageJobsResult where
  | ok (job : ImageJob)
  | fail
  | badRequest
  deriving DecidableEq

/-- The materialization branch of `complete_image_job`. -/
def runImagePipeline (projectId : Option String) (p : CompleteImageJobPayload)
    (env : ImageCompletionEnv) : CompleteImageJobPayload × ImageTrace :=
  if p.status = "completed" && truthyList p.outputImageUrls then
    let urls := p.outputImageUrls.getD []
    let sUrls := materializeUrls urls env.uploads
    let p1 := { p with outputImageUrls := some sUrls }
    let driveRan := truthyStr projectId && !sUrls.isEmpty
    (p1,
      { uploadCalls := urls.length
        driveFolderName := if driveRan then some "AI-Images" else none
        driveFiles := if driveRan then imageDriveFiles p.jobId sUrls env else [] })
  else (p, noImageTrace)

/-- `complete_image_job` (`PUT /image-jobs/{job_id}/complete`): reject a
path/payload id mismatch, look the job up, short-circuit when the stored
status is `completed`, otherwise run the pipeline and persist. -/
def completeImageJob (pathJobId : String) (existing : Option ImageJob)
    (payload : CompleteImageJobPayload) (env : ImageCompletionEnv) :
    ImageJobsResult × ImageTrace :=
  if payload.jobId ≠ pathJobId then (.badRequest, noImageTrace)
  else
    match existing with
    | some j =>
      if j.status = "completed" then (.ok j, noImageTrace)
      else
        let pt := runImagePipeline j.projectId payload env
        (.ok (completeImageJobUpdate j pt.1), pt.2)
    | none =>
      let pt := runImagePipeline none payload env
      (.fail, pt.2)

/-! ### Storage keys (`services/storage_service.py`) -/

/-- The storage path computed by `upload_video_from_url` (the function the
completion handlers call): `{folder}/{date}/{unique_id}.{ext}` where
`unique_id` is the first eight characters of a fresh `uuid4`. -/
def uploadVideoFromUrlPath (folder date uniqueId ext : String) : String :=
  folder ++ "/" ++ date ++ "/" ++ uniqueId ++ "." ++ ext

/-- The storage path computed by `upload_image_from_url`: same shape. -/
def uploadImageFromUrlPath (folder date uniqueId ext : String) : String :=
  folder ++ "/" ++ date ++ "/" ++ uniqueId ++ "." ++ ext

/-- The storage path computed by `upload_video_to_storage` (used by the
legacy `job_service` and the storage API, not by the completion
handlers): `videos/{date}/{job_id}_{filename}`. -/
def uploadVideoToStoragePath (date jobId filename : String) : String :=
  "videos/" ++ date ++ "/" ++ jobId ++ "_" ++ filename

/-! ### The feed cache (`core/cache.py`, `services/video_job_service.py`)

The store of `cachetools.TTLCache` is modelled as an association list
with insertion times.  Its expiry rule is modelled from the spec:
"an entry is never returned once `now - insertedAt > TTL`". -/

/-- `CACHE_TTL_SECONDS`. -/
def cacheTtlSeconds : Nat := 10

/-- A minimal feed row: the columns of the feed query that the claims
mention. -/
structure JobRow where
  id : String
  userId : Option String
  workflowName : Option String
  status : String
  createdAt : Nat
  deriving DecidableEq

/-- One cache entry. -/
structure FeedCacheEntry where
  key : String
  payload : List JobRow × Nat
  insertedAt : Nat
  deriving DecidableEq

/-- The cache store. -/
abbrev FeedCache : Type := List FeedCacheEntry

/-- `get_cached(key)` at time `now`.  Modelled from the spec: the entry is
returned only while `now - insertedAt ≤ TTL`. -/
def getCached (now : Nat) (cache : FeedCache) (key : String) : Option (List JobRow × Nat) :=
  match cache.find? (fun e => e.key = key) with
  | some e => if now ≤ e.insertedAt + cacheTtlSeconds then some e.payload else none
  | none => none

/-- `set_cached(key, data)` at time `now` (dict-style overwrite). -/
def setCached (now : Nat) (cache : FeedCache) (key : String) (payload : List JobRow × Nat) :
    FeedCache :=
  ⟨key, payload, now⟩ :: cache.filter (fun e => e.key ≠ key)

/-- `invalidate_pattern(prefix)`: drop every entry whose key starts with
the prefix, returning the new store and the count removed.  (Defined in
`core/cache.py`; the theorems record that no write path calls it.) -/
def invalidatePattern (pre : String) (cache : FeedCache) : FeedCache × Nat :=
  (cache.filter (fun e => !e.key.startsWith pre),
   (cache.filter (fun e => e.key.startsWith pre)).length)

/-- Python `x or 'all'`: `None` and the empty string both fall back. -/
def orAll : Option String → String
  | none => "all"
  | some s => if s.isEmpty then "all" else s

/-- `make_feed_cache_key`: the colon-joined parts
`feed:{table}`, `u:{user}`, `w:{workflow}`, `s:{status}`, `l:{limit}`,
`o:{offset}`. -/
def makeFeedCacheKey (table : String) (userId workflow status : Option String)
    (limit offset : Nat) : String :=
  "feed:" ++ table ++ ":u:" ++ orAll userId ++ ":w:" ++ orAll workflow ++
    ":s:" ++ orAll status ++ ":l:" ++ toString limit ++ ":o:" ++ toString offset

/-- Row filter of the feed query (equality filters applied only when the
parameter is supplied). -/
def rowMatches (workflow userId status : Option String) (r : JobRow) : Bool :=
  (match workflow with
   | some w => r.workflowName = some w
   | none => true) &&
  (match userId with
   | some u => r.userId = some u
   | none => true) &&
  (match status with
   | some st => r.status = st
   | none => true)

/-- Insert into a list kept in descending `createdAt` order. -/
def insertDesc (r : JobRow) : List JobRow → List JobRow
  | [] => [r]
  | x :: xs => if x.createdAt ≤ r.createdAt then r :: x :: xs else x :: insertDesc r xs

/-- Sort rows by `createdAt` descending (the `order("created_at",
desc=True)` of the query). -/
def sortDesc : List JobRow → List JobRow
  | [] => []
  | r :: rs => insertDesc r (sortDesc rs)

/-- The database part of `get_feed_jobs`: filter, count, order, paginate
(`range(offset, offset + limit - 1)` is inclusive, hence `take limit`). -/
def feedQuery (db : List JobRow) (workflow userId status : Option String)
    (limit offset : Nat) : List JobRow × Nat :=
  let matched := db.filter (rowMatches workflow userId status)
  (((sortDesc matched).drop offset).take limit, matched.length)

/-- The world a feed read or a job write touches. -/
structure FeedWorld where
  db : List JobRow
  cache : FeedCache

/-- `get_feed_jobs`: serve from the cache when present and fresh,
otherwise query the database and cache the response. -/
def getFeedJobs (w : FeedWorld) (now : Nat) (workflow userId status : Option String)
    (limit offset : Nat) : (List JobRow × Nat) × FeedWorld :=
  let key := makeFeedCacheKey "video_jobs" userId workflow status limit offset
  match getCached now w.cache key with
  | some payload => (payload, w)
  | none =>
    let res := feedQuery w.db workflow userId status limit offset
    (res, { w with cache := setCached now w.cache key res })

/-- The database effect of `VideoJobService.complete_job` on the feed
columns: the matching row's status changes.  The function performs no
cache operation — `complete_job` (and every other write path in the
repository) never calls `invalidate` or `invalidate_pattern`. -/
def completeJobWrite (w : FeedWorld) (jobId newStatus : String) : FeedWorld :=
  { w with db := w.db.map (fun r => if r.id = jobId then { r with status := newStatus } else r) }

/-! ### Auxiliary definitions used by the theorems -/

/-- Character-wise single-character replacement; `replaceAll` with a
one-character pattern computes this (helper for the escaping lemmas). -/
def concatRepl (a : Char) (r : List Char) : List Char → List Char
  | [] => []
  | c :: cs => (if c = a then r else [c]) ++ concatRepl a r cs

mutual
/-- Parse-level wellformedness: every string and key is made of good
characters, so `pyDumps` uses only the five simple escapes. -/
def wfp : Json → Bool
  | .jstr s => s.all goodChar
  | .jarr xs => wfpArr xs
  | .jobj fs => wfpObj fs
  | _ => true
/-- `wfp` on array elements. -/
def wfpArr : JsonArr → Bool
  | .anil => true
  | .acons h t => wfp h && wfpArr t
/-- `wfp` on object fields. -/
def wfpObj : JsonObj → Bool
  | .onil => true
  | .ocons k v t => k.all goodChar && wfp v && wfpObj t
end

/-- Field lookup in an object (first match). -/
def objGet (key : List Char) : JsonObj → Option Json
  | .onil => none
  | .ocons k v t => if k = key then some v else objGet key t

/-- The acceptance condition of the amended validation claim: a node is a
dictionary carrying both a `class_type` key and an `inputs` key (with no
constraint on the shape of the `inputs` value). -/
def nodeOk : Json → Bool
  | .jobj fields => hasKey "class_type".data fields && hasKey "inputs".data fields
  | _ => false

/-- All nodes of a workflow satisfy `nodeOk`. -/
def allNodesOk : JsonObj → Bool
  | .onil => true
  | .ocons _ v t => nodeOk v && allNodesOk t

/-! ### Concrete instances used by counterexamples and witnesses -/

/-- Placeholder name `SEED`. -/
def tSEED : List Char := "SEED".data

/-- Placeholder name `PROMPT`. -/
def tPROMPT : List Char := "PROMPT".data

/-- A representative template: one node with a `class_type`, an integer
input fed by `{{SEED}}` and a text input fed by `{{PROMPT}}`. -/
def tmpl1 : Json :=
  .jobj (.ocons "3".data
    (.jobj (.ocons "class_type".data (.jstr "KSampler".data)
      (.ocons "inputs".data
        (.jobj (.ocons "seed".data (.jstr (phChars tSEED))
          (.ocons "text".data (.jstr (phChars tPROMPT)) .onil)))
        .onil)))
    .onil)

/-- A template whose only placeholder occurs embedded inside a longer
string value (`"pre{{NAME}}post"`), never as an entire quoted string. -/
def tmplEmb : Json :=
  .jobj (.ocons "1".data
    (.jobj (.ocons "class_type".data (.jstr "LoadVideo".data)
      (.ocons "inputs".data
        (.jobj (.ocons "path".data
          (.jstr ("pre".data ++ phChars "NAME".data ++ "post".data)) .onil))
        .onil)))
    .onil)

/-- Node content whose `inputs` value is the non-dictionary `5`. -/
def w8node : JsonObj :=
  .ocons "class_type".data (.jstr "X".data) (.ocons "inputs".data (.jint 5) .onil)

/-- A workflow whose single node carries a non-dictionary `inputs`
value. -/
def w8 : Json := .jobj (.ocons "1".data (.jobj w8node) .onil)

/-- A stored video job in the terminal `failed` state. -/
def cJobFailed : VideoJob :=
  { comfyJobId := "job-1", status := "failed", outputVideoUrls := none
    errorMessage := some "renderer error", thumbnailUrl := none, durationSeconds := none
    projectId := none, updatedAtTick := 5 }

/-- A stored video job in the terminal `completed` state. -/
def cJobDone : VideoJob :=
  { comfyJobId := "job-1", status := "completed"
    outputVideoUrls := some ["https://store/videos/old.mp4"]
    errorMessage := none, thumbnailUrl := none, durationSeconds := none
    projectId := none, updatedAtTick := 5 }

/-- A stored video job still `processing`, carrying an archive project. -/
def cJobProcessing : VideoJob :=
  { comfyJobId := "job-1", status := "processing", outputVideoUrls := none
    errorMessage := none, thumbnailUrl := none, durationSeconds := none
    projectId := some "project-9", updatedAtTick := 5 }

/-- A success completion payload carrying one ephemeral output. -/
def cPayload : CompleteVideoJobPayload :=
  { jobId := "job-1", status := "completed"
    outputVideoUrls := some ["http://comfy/view/out.mp4"]
    errorMessage := none, durationSeconds := none, thumbnailUrl := none }

/-- A success completion payload carrying two ephemeral outputs. -/
def cPayload2 : CompleteVideoJobPayload :=
  { jobId := "job-1", status := "completed"
    outputVideoUrls := some ["http://comfy/view/a.mp4", "http://comfy/view/b.mp4"]
    errorMessage := none, durationSeconds := none, thumbnailUrl := none }

/-- An environment whose storage uploads all succeed. -/
def cEnv : VideoCompletionEnv :=
  { uploads := fun _ => (true, some "https://store/videos/new.mp4")
    thumbnail := (false, none), driveFolder := (true, some "folder-1")
    driveDownloadOk := true, now := 6 }

/-- An environment where the first upload succeeds and the second fails. -/
def cEnvPartial : VideoCompletionEnv :=
  { uploads := fun i => if i = 0 then (true, some "https://store/videos/a.mp4") else (false, none)
    thumbnail := (false, none), driveFolder := (false, none)
    driveDownloadOk := false, now := 6 }

/-- A stored image job still `processing`, carrying an archive project. -/
def cImgJob : ImageJob :=
  { comfyJobId := "img-1", status := "processing", outputImageUrls := none
    errorMessage := none, width := none, height := none, projectId := some "project-9" }

/-- A success image completion payload with two outputs. -/
def cImgPayload : CompleteImageJobPayload :=
  { jobId := "img-1", status := "completed"
    outputImageUrls := some ["http://comfy/view/a.png", "http://comfy/view/b.png"]
    errorMessage := none, width := none, height := none }

/-- An image environment where everything succeeds. -/
def cImgEnv : ImageCompletionEnv :=
  { uploads := fun _ => (true, some "https://store/images/x.png")
    driveFolder := (true, some "folder-2"), driveDownloadOk := fun _ => true }

/-- One feed row, initially `processing`. -/
def row5 : JobRow :=
  { id := "j1", userId := none, workflowName := none, status := "processing", createdAt := 0 }

/-- A world with that one row and an empty cache. -/
def w5 : FeedWorld := { db := [row5], cache := [] }

/-- A world whose cache already holds the unfiltered first-page feed
payload, inserted at time `0`. -/
def w5c : FeedWorld :=
  { db := [row5]
    cache := [⟨makeFeedCacheKey "video_jobs" none none none 50 0, ([row5], 1), 0⟩] }

/-- The suffixes that can follow a serialized value inside a larger
serialized document (or the empty suffix at top level): the parser's
integer branch must not read into them. -/
def restOkB : List Char → Bool
  | [] => true
  | c :: _ => c = ',' || c = ']' || c = rb

/-! ## Theorems -/

/-! ### The completion idempotency guard (claim 1) -/

theorem runVideoPipeline_status (pid : Option String) (p : CompleteVideoJobPayload)
    (env : VideoCompletionEnv) : (runVideoPipeline pid p env).1.status = p.status := by
  unfold runVideoPipeline
  dsimp only
  split_ifs <;> rfl

theorem completeJobUpdate_status (j : VideoJob) (p : CompleteVideoJobPayload) (now : Nat) :
    (completeJobUpdate j p now).status = p.status := rfl

/-- C1 counterexample: with the stored status in the terminal state
`failed`, a completion call re-runs the materialization pipeline (one
storage upload happens) and the returned record differs from the stored
one — the guard in `complete_video_job` fires only on `completed`. -/
theorem claim1_counterexample :
    (completeVideoJob "job-1" (some cJobFailed) cPayload cEnv).2.uploadCalls = 1 ∧
    (completeVideoJob "job-1" (some cJobFailed) cPayload cEnv).1 ≠ .ok cJobFailed := by
  decide

/-- C1 (amended): the idempotency guard fires exactly on the stored
status `completed`: such a call returns success with the stored record
unchanged and an empty side-effect trace; and after a first successful
completion call, a repeated call with identical arguments returns the
stored record unchanged and runs no pipeline work, so the pipeline
executes at most once across the two calls. -/
theorem claim1_amended (jobId : String) (j : VideoJob) (p : CompleteVideoJobPayload)
    (env env2 : VideoCompletionEnv) :
    (j.status = "completed" →
      completeVideoJob jobId (some j) p env = (.ok j, noVideoTrace)) ∧
    (p.status = "completed" →
      ∀ j2, (completeVideoJob jobId (some j) p env).1 = .ok j2 →
        completeVideoJob jobId (some j2) p env2 = (.ok j2, noVideoTrace)) := by
  constructor
  · intro h
    simp [completeVideoJob, h]
  · intro hp j2 h2
    by_cases hj : j.status = "completed"
    · simp [completeVideoJob, hj] at h2
      simp [completeVideoJob, ← h2, hj]
    · simp [completeVideoJob, hj] at h2
      have hst : j2.status = "completed" := by
        rw [← h2, completeJobUpdate_status, runVideoPipeline_status]
        exact hp
      simp [completeVideoJob, hst]

/-- C1 witness: the amended guard at a concrete already-completed job. -/
theorem claim1_witness :
    completeVideoJob "job-1" (some cJobDone) cPayload cEnv = (.ok cJobDone, noVideoTrace) :=
  (claim1_amended "job-1" cJobDone cPayload cEnv cEnv).1 (by rfl)

/-! ### Partial materialization (claim 3) -/

theorem materializeUrls_length (urls : List String) (f : Nat → Bool × Option String) :
    (materializeUrls urls f).length = urls.length := by
  simp [materializeUrls]

/-- C3: during the durability stage, a failed fetch/store for one
ephemeral reference keeps that reference ephemeral and does not abort the
rest or fail the call: with two ephemeral refs where the first upload
succeeds with durable URL `d1` and the second fails, the completion call
returns success and stores `[d1, u2]`. -/
theorem claim3_partial_materialization (jobId : String) (j : VideoJob)
    (p : CompleteVideoJobPayload) (env : VideoCompletionEnv) (u1 u2 d1 : String)
    (hj : j.status ≠ "completed")
    (hp : p.status = "completed")
    (hurls : p.outputVideoUrls = some [u1, u2])
    (hup0 : env.uploads 0 = (true, some d1))
    (hd1 : truthyStr (some d1) = true)
    (hup1 : env.uploads 1 = (false, none)) :
    ∃ j2, (completeVideoJob jobId (some j) p env).1 = .ok j2 ∧
      j2.outputVideoUrls = some [d1, u2] ∧ j2.status = "completed" := by
  have hmat : materializeUrls [u1, u2] env.uploads = [d1, u2] := by
    have h2 : List.range 2 = [0, 1] := rfl
    simp [materializeUrls, h2, hup0, hup1, hd1]
  refine ⟨completeJobUpdate j (runVideoPipeline j.projectId { p with jobId := jobId } env).1
      env.now, by simp [completeVideoJob, hj], ?_, ?_⟩
  · simp only [runVideoPipeline, hp, hurls]
    simp only [hmat, truthyList]
    split_ifs <;> simp_all [completeJobUpdate, truthyList, hmat]
  · simp [completeJobUpdate_status, runVideoPipeline_status, hp]

/-- C3 witness: the partial-materialization theorem at a concrete job,
payload and environment. -/
theorem claim3_witness :
    ∃ j2, (completeVideoJob "job-1" (some cJobProcessing) cPayload2 cEnvPartial).1 = .ok j2 ∧
      j2.outputVideoUrls = some ["https://store/videos/a.mp4", "http://comfy/view/b.mp4"] ∧
      j2.status = "completed" :=
  claim3_partial_materialization "job-1" cJobProcessing cPayload2 cEnvPartial
    "http://comfy/view/a.mp4" "http://comfy/view/b.mp4" "https://store/videos/a.mp4"
    (by decide) rfl rfl rfl (by decide) rfl

/-! ### Archive replication (claim 7) -/

theorem foldl_filter_append {α β : Type} (f : α → β) (dec : α → Bool) :
    ∀ (l : List α) (init : List β), (∀ x ∈ l, dec x = true) →
      l.foldl (fun acc x => if dec x then acc ++ [f x] else acc) init = init ++ l.map f := by
  intro l
  induction l with
  | nil => intro init _; simp
  | cons x xs ih =>
    intro init h
    have hx : dec x = true := h x (by simp)
    simp only [List.foldl_cons, hx, if_pos]
    rw [ih (init ++ [f x]) (fun y hy => h y (by simp [hy]))]
    simp

theorem runVideoPipeline_result_env (pid : Option String) (p : CompleteVideoJobPayload)
    (env1 env2 : VideoCompletionEnv)
    (hu : env1.uploads = env2.uploads) (ht : env1.thumbnail = env2.thumbnail) :
    (runVideoPipeline pid p env1).1 = (runVideoPipeline pid p env2).1 := by
  unfold runVideoPipeline
  rw [hu, ht]
  split <;> rfl

theorem runImagePipeline_result_env (pid : Option String) (p : CompleteImageJobPayload)
    (env1 env2 : ImageCompletionEnv) (hu : env1.uploads = env2.uploads) :
    (runImagePipeline pid p env1).1 = (runImagePipeline pid p env2).1 := by
  unfold runImagePipeline
  rw [hu]
  split <;> rfl

/-- C7 counterexample: a completing video job with an archive destination
and two durable outputs copies only one file (`{job_id}.mp4`, no index
suffix) into the archive, not one file per durable output. -/
theorem claim7_counterexample :
    (completeVideoJob "job-1" (some cJobProcessing) cPayload2 cEnv).2.driveFiles =
      ["job-1.mp4"] ∧
    (cPayload2.outputVideoUrls.getD []).length = 2 ∧
    (completeVideoJob "job-1" (some cJobProcessing) cPayload2 cEnv).2.driveFolderName =
      some "AI-Videos" := by
  decide

/-- C7 (amended): when a completing job carries an archive destination,
the stage ensures the well-known subfolder (`AI-Videos` / `AI-Images`);
the image handler copies each durable output, naming files by job id with
an index suffix when there are several, while the video handler copies
only the first durable output, named `{job_id}.mp4`; and the archive
stage's outcomes never affect the returned job record. -/
theorem claim7_amended (jobId : String) (jv : VideoJob) (ji : ImageJob)
    (pv : CompleteVideoJobPayload) (pi₀ : CompleteImageJobPayload)
    (env : VideoCompletionEnv) (ienv : ImageCompletionEnv) :
    (jv.status ≠ "completed" → pv.status = "completed" →
      truthyList pv.outputVideoUrls = true → truthyStr jv.projectId = true →
      (completeVideoJob jobId (some jv) pv env).2 =
        ⟨(pv.outputVideoUrls.getD []).length, some "AI-Videos", videoDriveFiles jobId env⟩) ∧
    (ji.status ≠ "completed" → pi₀.jobId = jobId → pi₀.status = "completed" →
      truthyList pi₀.outputImageUrls = true → truthyStr ji.projectId = true →
      ienv.driveFolder.1 = true → truthyStr ienv.driveFolder.2 = true →
      (∀ i, ienv.driveDownloadOk i = true) →
      (completeImageJob jobId (some ji) pi₀ ienv).2.driveFiles =
        ((materializeUrls (pi₀.outputImageUrls.getD []) ienv.uploads).zip
            (List.range (pi₀.outputImageUrls.getD []).length)).map
          (fun ui => imageDriveFilename jobId
            (materializeUrls (pi₀.outputImageUrls.getD []) ienv.uploads).length ui.2 ui.1)) ∧
    (∀ (existing : Option VideoJob) (env2 : VideoCompletionEnv),
      env.uploads = env2.uploads → env.thumbnail = env2.thumbnail → env.now = env2.now →
      (completeVideoJob jobId existing pv env).1 = (completeVideoJob jobId existing pv env2).1) ∧
    (∀ (existing : Option ImageJob) (ienv2 : ImageCompletionEnv),
      ienv.uploads = ienv2.uploads →
      (completeImageJob jobId existing pi₀ ienv).1 = (completeImageJob jobId existing pi₀ ienv2).1) := by
  refine ⟨?_, ?_, ?_, ?_⟩
  · intro hj hp hurls hproj
    obtain ⟨l, hl⟩ : ∃ l, pv.outputVideoUrls = some l := by
      cases h : pv.outputVideoUrls with
      | none => rw [h] at hurls; simp [truthyList] at hurls
      | some l => exact ⟨l, rfl⟩
    have hlen : (materializeUrls l env.uploads).length = l.length := materializeUrls_length _ _
    have hne : l ≠ [] := by
      rw [hl] at hurls; simpa [truthyList, List.isEmpty_iff] using hurls
    rw [hl] at hurls
    have hne2 : materializeUrls l env.uploads ≠ [] := by
      intro hcon
      exact hne (by simpa [hcon] using hlen.symm)
    have hmne : (materializeUrls l env.uploads).isEmpty = false := by
      cases hi : (materializeUrls l env.uploads).isEmpty with
      | false => rfl
      | true => exact absurd (List.isEmpty_iff.mp hi) hne2
    simp [completeVideoJob, hj, runVideoPipeline, hp, hurls, hl, hproj, hmne]
  · intro hj hid hp hurls hproj hfolder1 hfolder2 hdl
    obtain ⟨l, hl⟩ : ∃ l, pi₀.outputImageUrls = some l := by
      cases h : pi₀.outputImageUrls with
      | none => rw [h] at hurls; simp [truthyList] at hurls
      | some l => exact ⟨l, rfl⟩
    have hlen : (materializeUrls l ienv.uploads).length = l.length := materializeUrls_length _ _
    have hne : l ≠ [] := by
      rw [hl] at hurls; simpa [truthyList, List.isEmpty_iff] using hurls
    rw [hl] at hurls
    have hne2 : materializeUrls l ienv.uploads ≠ [] := by
      intro hcon
      exact hne (by simpa [hcon] using hlen.symm)
    have hmne : (materializeUrls l ienv.uploads).isEmpty = false := by
      cases hi : (materializeUrls l ienv.uploads).isEmpty with
      | false => rfl
      | true => exact absurd (List.isEmpty_iff.mp hi) hne2
    have hfoldl := foldl_filter_append
      (fun ui : String × Nat => imageDriveFilename jobId l.length ui.2 ui.1)
      (fun ui : String × Nat => ienv.driveDownloadOk ui.2)
      ((materializeUrls l ienv.uploads).zip (List.range l.length))
      [] (fun x _ => hdl x.2)
    simp only [completeImageJob, hid, ne_eq, not_true_eq_false, if_false, hj,
      runImagePipeline, hp, hl, hurls, imageDriveFiles, hfolder1, hfolder2]
    simp [hurls, hmne, hne, hproj, hlen, hid, hfoldl]
  · intro existing env2 hu ht hn
    cases existing with
    | none => simp [completeVideoJob]
    | some j =>
      by_cases hj : j.status = "completed"
      · simp [completeVideoJob, hj]
      · simp [completeVideoJob, hj, hn, runVideoPipeline_result_env _ _ _ _ hu ht]
  · intro existing ienv2 hu
    by_cases hmis : pi₀.jobId ≠ jobId
    · simp [completeImageJob, hmis]
    · cases existing with
      | none => simp [completeImageJob, hmis]
      | some j =>
        by_cases hj : j.status = "completed"
        · simp [completeImageJob, hmis, hj]
        · simp [completeImageJob, hmis, hj, runImagePipeline_result_env _ _ _ _ hu]

/-- C7 witness: the amended archive-replication behavior at concrete
jobs: the video stage attempts exactly `["job-1.mp4"]`, the image stage
one indexed filename per durable output. -/
theorem claim7_witness :
    (completeVideoJob "job-1" (some cJobProcessing) cPayload2 cEnv).2 =
      ⟨2, some "AI-Videos", videoDriveFiles "job-1" cEnv⟩ ∧
    (completeImageJob "img-1" (some cImgJob) cImgPayload cImgEnv).2.driveFiles =
      ((materializeUrls (cImgPayload.outputImageUrls.getD []) cImgEnv.uploads).zip
          (List.range (cImgPayload.outputImageUrls.getD []).length)).map
        (fun ui => imageDriveFilename "img-1"
          (materializeUrls (cImgPayload.outputImageUrls.getD []) cImgEnv.uploads).length
          ui.2 ui.1) :=
  ⟨(claim7_amended "job-1" cJobProcessing cImgJob cPayload2 cImgPayload cEnv cImgEnv).1
      (by decide) rfl (by decide) (by decide),
   (claim7_amended "img-1" cJobProcessing cImgJob cPayload2 cImgPayload cEnv cImgEnv).2.1
      (by decide) rfl rfl (by decide) (by decide) rfl (by decide) (fun _ => rfl)⟩

/-! ### Storage keys (claim 4) -/

theorem isPrefixOf_self_append (l t : List Char) : l.isPrefixOf (l ++ t) = true := by
  induction l with
  | nil => simp [List.isPrefixOf]
  | cons c cs ih => simp [List.isPrefixOf, ih]

theorem hasSub_middle (pat x y : List Char) (hpat : pat ≠ []) :
    hasSub pat (x ++ pat ++ y) = true := by
  induction x with
  | nil =>
    obtain ⟨c, cs, rfl⟩ : ∃ c cs, pat = c :: cs := by
      cases pat with
      | nil => exact absurd rfl hpat
      | cons c cs => exact ⟨c, cs, rfl⟩
    have h : (c :: cs).isPrefixOf (c :: (cs ++ y)) = true :=
      isPrefixOf_self_append (c :: cs) y
    simp [hasSub, h]
  | cons c cs ih =>
    simp only [List.cons_append, hasSub]
    refine Bool.or_eq_true_iff.mpr (Or.inr ?_)
    simpa [List.append_assoc] using ih

/-- C4 counterexample: the storage key used by the completion path
(`upload_video_from_url`) is built from a fresh random unique id, so two
materializations of the same job produce different keys, and the key does
not contain the job id at all. -/
theorem claim4_counterexample :
    uploadVideoFromUrlPath "video-results" "2026-10-12" "aaaaaaaa" "mp4" ≠
      uploadVideoFromUrlPath "video-results" "2026-10-12" "bbbbbbbb" "mp4" ∧
    hasSub "job-123".data
      (uploadVideoFromUrlPath "video-results" "2026-10-12" "aaaaaaaa" "mp4").data = false := by
  decide

/-- C4 (amended): the completion path stores bytes under
`{folder}/{date}/{unique_id}.{ext}` with a fresh random id — distinct ids
give distinct keys, so the key is not deterministic per job and carries
no job id; the deterministic date-plus-job-id key exists only in
`upload_video_to_storage`, which the completion handlers do not call and
which always contains the job id. -/
theorem claim4_amended :
    (∀ f d e u1 u2 : String, u1 ≠ u2 →
      uploadVideoFromUrlPath f d u1 e ≠ uploadVideoFromUrlPath f d u2 e) ∧
    (∀ d jobId fn : String, jobId.data ≠ [] →
      hasSub jobId.data (uploadVideoToStoragePath d jobId fn).data = true) := by
  constructor
  · intro f d e u1 u2 hne heq
    apply hne
    have h2 := congrArg String.data heq
    simp only [uploadVideoFromUrlPath, String.data_append, List.append_assoc] at h2
    have h3 := List.append_cancel_left h2
    have h4 := List.append_cancel_left h3
    have h5 := List.append_cancel_left h4
    have h6 := List.append_cancel_left h5
    have h7 : u1.data = u2.data := List.append_cancel_right h6
    cases u1; cases u2
    exact congrArg String.mk h7
  · intro d jobId fn hne
    have : ("videos/" ++ d ++ "/" ++ jobId ++ "_" ++ fn).data =
        ("videos/" ++ d ++ "/").data ++ jobId.data ++ ("_" ++ fn).data := by
      simp [String.data_append, List.append_assoc]
    simpa [uploadVideoToStoragePath, this] using
      hasSub_middle jobId.data ("videos/" ++ d ++ "/").data ("_" ++ fn).data hne

/-- C4 witness: the amended key behavior at concrete inputs. -/
theorem claim4_witness :
    uploadVideoFromUrlPath "video-results" "2026-10-12" "11111111" "mp4" ≠
      uploadVideoFromUrlPath "video-results" "2026-10-12" "22222222" "mp4" ∧
    hasSub "job-9".data (uploadVideoToStoragePath "2026-10-12" "job-9" "a.mp4").data = true :=
  ⟨claim4_amended.1 "video-results" "2026-10-12" "mp4" "11111111" "22222222" (by decide),
   claim4_amended.2 "2026-10-12" "job-9" "a.mp4" (by decide)⟩

/-! ### Cache invalidation on writes (claim 5) -/

/-- C5 counterexample: populate the cache at `t=0`, complete the job at
`t=1`, read again at `t=2` (before TTL expiry): the read returns the
stale cached payload instead of bypassing the cache — no write
invalidates any cache key. -/
theorem claim5_counterexample :
    ((getFeedJobs (completeJobWrite (getFeedJobs w5 0 none none none 50 0).2 "j1" "completed") 2
        none none none 50 0).1 =
      (getFeedJobs w5 0 none none none 50 0).1) ∧
    (getFeedJobs (completeJobWrite (getFeedJobs w5 0 none none none 50 0).2 "j1" "completed") 2
        none none none 50 0).1 ≠
      feedQuery (completeJobWrite (getFeedJobs w5 0 none none none 50 0).2 "j1" "completed").db
        none none none 50 0 := by
  decide

/-- C5 (amended): no write invalidates cache keys: `complete_job` leaves
the cache untouched, so a feed read issued after such a write and before
TTL expiry returns the previously cached payload (stale data is served
until the TTL lapses); the prefix invalidation helper
`invalidate_pattern` does remove exactly the keys with the given prefix,
but no write path in the repository calls it. -/
theorem claim5_amended :
    (∀ (w : FeedWorld) (jobId st : String), (completeJobWrite w jobId st).cache = w.cache) ∧
    (∀ (w : FeedWorld) (now : Nat) (wf u stt : Option String) (l o : Nat)
        (payload : List JobRow × Nat) (jobId st : String),
      getCached now w.cache (makeFeedCacheKey "video_jobs" u wf stt l o) = some payload →
      (getFeedJobs (completeJobWrite w jobId st) now wf u stt l o).1 = payload) ∧
    (∀ (pre : String) (cache : FeedCache) (e : FeedCacheEntry),
      e ∈ (invalidatePattern pre cache).1 → e.key.startsWith pre = false) := by
  refine ⟨fun _ _ _ => rfl, ?_, ?_⟩
  · intro w now wf u stt l o payload jobId st hcached
    simp [getFeedJobs, completeJobWrite, hcached]
  · intro pre cache e he
    have := (List.mem_filter.mp he).2
    simpa using this

/-- C5 witness: a concrete stale read served from the cache after a
completing write. -/
theorem claim5_witness :
    (getFeedJobs (completeJobWrite w5c "j1" "completed") 2 none none none 50 0).1 =
      ([row5], 1) :=
  claim5_amended.2.1 w5c 2 none none none 50 0 ([row5], 1) "j1" "completed" (by decide)

/-! ### Cache TTL expiry (claim 9) -/

/-- C9: an entry inserted at `t0` is never served at any `t` with
`t0 + TTL < t`: the expired read returns nothing from the cache, the
feed read falls through to the backing query, and the fresh result is
re-cached at `t`. -/
theorem claim9_ttl_expiry (w : FeedWorld) (wf u stt : Option String) (l o : Nat)
    (payload : List JobRow × Nat) (t0 t : Nat)
    (hfind : w.cache.find? (fun e => e.key = makeFeedCacheKey "video_jobs" u wf stt l o) =
      some ⟨makeFeedCacheKey "video_jobs" u wf stt l o, payload, t0⟩)
    (hexp : t0 + cacheTtlSeconds < t) :
    getCached t w.cache (makeFeedCacheKey "video_jobs" u wf stt l o) = none ∧
    (getFeedJobs w t wf u stt l o).1 = feedQuery w.db wf u stt l o ∧
    (getFeedJobs w t wf u stt l o).2.cache =
      setCached t w.cache (makeFeedCacheKey "video_jobs" u wf stt l o)
        (feedQuery w.db wf u stt l o) := by
  have hg : getCached t w.cache (makeFeedCacheKey "video_jobs" u wf stt l o) = none := by
    unfold getCached
    rw [hfind]
    have : ¬ t ≤ t0 + cacheTtlSeconds := by omega
    simp [this]
  refine ⟨hg, ?_, ?_⟩ <;> simp [getFeedJobs, hg]

/-- C9 witness: a concrete entry inserted at `0` is not served at `11`
(TTL is 10 seconds) and the read falls through to the database. -/
theorem claim9_witness :
    getCached 11 w5c.cache (makeFeedCacheKey "video_jobs" none none none 50 0) = none ∧
    (getFeedJobs w5c 11 none none none 50 0).1 = feedQuery w5c.db none none none 50 0 ∧
    (getFeedJobs w5c 11 none none none 50 0).2.cache =
      setCached 11 w5c.cache (makeFeedCacheKey "video_jobs" none none none 50 0)
        (feedQuery w5c.db none none none 50 0) :=
  claim9_ttl_expiry w5c none none none 50 0 ([row5], 1) 0 11 (by decide) (by decide)

/-! ### Workflow validation (claim 8) -/

theorem checkNodes_none_iff : ∀ fs : JsonObj, checkNodes fs = none ↔ allNodesOk fs = true
  | .onil => by simp [checkNodes, allNodesOk]
  | .ocons nodeId nodeData t => by
    have ih := checkNodes_none_iff t
    cases nodeData with
    | jobj fields =>
      by_cases h1 : hasKey "class_type".data fields
      · by_cases h2 : hasKey "inputs".data fields
        · simp [checkNodes, allNodesOk, nodeOk, h1, h2, ih]
        · simp [checkNodes, allNodesOk, nodeOk, h1, h2]
      · simp [checkNodes, allNodesOk, nodeOk, h1]
    | jnull => simp [checkNodes, allNodesOk, nodeOk]
    | jbool b => simp [checkNodes, allNodesOk, nodeOk]
    | jint n => simp [checkNodes, allNodesOk, nodeOk]
    | jstr s => simp [checkNodes, allNodesOk, nodeOk]
    | jarr xs => simp [checkNodes, allNodesOk, nodeOk]

/-- C8 counterexample: a workflow whose single node carries
`inputs: 5` — a non-map `inputs` value — is accepted by
`validate_workflow`, contradicting the claimed "inputs key whose value is
a map" condition. -/
theorem claim8_counterexample :
    validateWorkflow w8 = none ∧ objGet "inputs".data w8node = some (.jint 5) := by
  constructor <;> rfl

/-- C8 (amended): `validate_workflow` accepts a document if and only if
it is a non-empty map in which every node is itself a map carrying both a
`class_type` key and an `inputs` key — the shape of the `inputs` value is
not checked.  Rejections carry structured errors naming the first
offending node. -/
theorem claim8_amended (w : Json) :
    validateWorkflow w = none ↔
      ∃ fs, w = .jobj fs ∧ fs ≠ .onil ∧ allNodesOk fs = true := by
  cases w with
  | jobj fs =>
    cases fs with
    | onil => simp [validateWorkflow]
    | ocons k v t =>
      rw [show validateWorkflow (.jobj (.ocons k v t)) = checkNodes (.ocons k v t) from rfl,
        checkNodes_none_iff]
      constructor
      · intro h
        exact ⟨.ocons k v t, rfl, by simp, h⟩
      · rintro ⟨fs, hfs, -, hok⟩
        cases hfs
        exact hok
  | jnull => simp [validateWorkflow]
  | jbool b => simp [validateWorkflow]
  | jint n => simp [validateWorkflow]
  | jstr s => simp [validateWorkflow]
  | jarr xs => simp [validateWorkflow]

/-! ### Fuel adequacy and unfolding equations for `replaceAll` -/

theorem repAux_congr (pat rep : List Char) (hpat : pat ≠ []) :
    ∀ (f1 : Nat) (s : List Char) (f2 : Nat), s.length ≤ f1 → s.length ≤ f2 →
      repAux f1 pat rep s = repAux f2 pat rep s := by
  intro f1
  induction f1 with
  | zero =>
    intro s f2 h1 _
    have hs : s = [] := List.length_eq_zero.mp (Nat.le_zero.mp h1)
    subst hs
    cases f2 <;> rfl
  | succ f ih =>
    intro s f2 h1 h2
    cases s with
    | nil => cases f2 <;> rfl
    | cons c cs =>
      have hplen : 1 ≤ pat.length := by
        cases pat with
        | nil => exact absurd rfl hpat
        | cons p ps => simp
      cases f2 with
      | zero => simp at h2
      | succ f2' =>
        simp only [repAux]
        by_cases hp : pat.isPrefixOf (c :: cs)
        · simp only [hp, if_true]
          have hd : ((c :: cs).drop pat.length).length ≤ cs.length := by
            simp only [List.length_drop, List.length_cons]
            omega
          rw [ih ((c :: cs).drop pat.length) f2' (by simp at h1; omega) (by simp at h2; omega)]
        · simp only [hp, if_false]
          rw [ih cs f2' (by simp at h1; omega) (by simp at h2; omega)]
          simp

theorem replaceAll_cons_pos (pat rep : List Char) (c : Char) (cs : List Char)
    (hpat : pat ≠ []) (h : pat.isPrefixOf (c :: cs) = true) :
    replaceAll pat rep (c :: cs) = rep ++ replaceAll pat rep ((c :: cs).drop pat.length) := by
  have hplen : 1 ≤ pat.length := by
    cases pat with
    | nil => exact absurd rfl hpat
    | cons p ps => simp
  show repAux (cs.length + 1) pat rep (c :: cs) = _
  simp only [repAux, h, if_true]
  congr 1
  exact repAux_congr pat rep hpat cs.length ((c :: cs).drop pat.length)
    ((c :: cs).drop pat.length).length (by simp; omega) le_rfl

theorem replaceAll_cons_neg (pat rep : List Char) (c : Char) (cs : List Char)
    (h : pat.isPrefixOf (c :: cs) = false) :
    replaceAll pat rep (c :: cs) = c :: replaceAll pat rep cs := by
  show repAux (cs.length + 1) pat rep (c :: cs) = _
  simp only [repAux, h, if_false]
  rfl

theorem replaceAll_self_prefix (pat rep M : List Char) (hpat : pat ≠ []) :
    replaceAll pat rep (pat ++ M) = rep ++ replaceAll pat rep M := by
  obtain ⟨c, cs, rfl⟩ : ∃ c cs, pat = c :: cs := by
    cases pat with
    | nil => exact absurd rfl hpat
    | cons c cs => exact ⟨c, cs, rfl⟩
  rw [List.cons_append]
  rw [replaceAll_cons_pos _ _ _ _ hpat
    (by simpa using isPrefixOf_self_append (c :: cs) M)]
  congr 1
  have h := List.drop_left (c :: cs) M
  simpa using h

theorem replaceAll_no_sub (pat rep : List Char) (hpat : pat ≠ []) :
    ∀ s, hasSub pat s = false → replaceAll pat rep s = s
  | [], _ => rfl
  | c :: cs, h => by
    have h1 : pat.isPrefixOf (c :: cs) = false := by
      simp only [hasSub, Bool.or_eq_false_iff] at h
      exact h.1
    have h2 : hasSub pat cs = false := by
      simp only [hasSub, Bool.or_eq_false_iff] at h
      exact h.2
    rw [replaceAll_cons_neg _ _ _ _ h1, replaceAll_no_sub pat rep hpat cs h2]

/-! ### Where the quoted-placeholder pattern cannot match -/

theorem quotedPh_ne_nil (k : List Char) : quotedPh k ≠ [] := by simp [quotedPh]

theorem qph_not_prefix_head (k : List Char) (c : Char) (cs : List Char) (hc : c ≠ '"') :
    (quotedPh k).isPrefixOf (c :: cs) = false := by
  have hb : ('"' == c) = false := beq_eq_false_iff_ne.mpr (Ne.symm hc)
  simp [quotedPh, List.isPrefixOf, hb]

theorem qph_not_prefix_second (k : List Char) (d : Char) (cs : List Char) (hd : d ≠ lb) :
    (quotedPh k).isPrefixOf ('"' :: d :: cs) = false := by
  have hb : (lb == d) = false := beq_eq_false_iff_ne.mpr (Ne.symm hd)
  simp [quotedPh, List.isPrefixOf, hb]

theorem qph_not_prefix_single (k : List Char) :
    (quotedPh k).isPrefixOf ['"'] = false := by
  simp [quotedPh, List.isPrefixOf]

theorem replaceAll_walk_no_quote (k rep : List Char) :
    ∀ (l M : List Char), (∀ c ∈ l, c ≠ '"') →
      replaceAll (quotedPh k) rep (l ++ M) = l ++ replaceAll (quotedPh k) rep M
  | [], _, _ => by simp
  | c :: l', M, h => by
    have hc : c ≠ '"' := h c (by simp)
    rw [List.cons_append, replaceAll_cons_neg _ _ _ _ (qph_not_prefix_head k c _ hc),
      replaceAll_walk_no_quote k rep l' M (fun d hd => h d (by simp [hd]))]
    rfl

/-- Walk one quote-closed string remainder: `body ++ '"' :: M` where the
body is brace-free and `M` does not start with a left brace. -/
theorem replaceAll_walk_strtail (k rep : List Char) :
    ∀ (body M : List Char), (∀ c ∈ body, c ≠ lb) → M.head? ≠ some lb →
      replaceAll (quotedPh k) rep (body ++ '"' :: M) =
        body ++ '"' :: replaceAll (quotedPh k) rep M
  | [], M, _, hM => by
    cases M with
    | nil =>
      rw [List.nil_append, replaceAll_cons_neg _ _ _ _ (qph_not_prefix_single k)]
      rfl
    | cons d M' =>
      have hd : d ≠ lb := by
        intro h
        exact hM (by simp [h])
      rw [List.nil_append, replaceAll_cons_neg _ _ _ _ (qph_not_prefix_second k d M' hd)]
      rfl
  | c :: body', M, hb, hM => by
    have hstep : (quotedPh k).isPrefixOf (c :: (body' ++ '"' :: M)) = false := by
      by_cases hc : c = '"'
      · subst hc
        cases body' with
        | nil =>
          cases M with
          | nil => exact qph_not_prefix_second k '"' [] (by decide)
          | cons d M' => exact qph_not_prefix_second k '"' (d :: M') (by decide)
        | cons e body'' =>
          exact qph_not_prefix_second k e _ (hb e (by simp))
      · exact qph_not_prefix_head k c _ hc
    rw [List.cons_append, replaceAll_cons_neg _ _ _ _ hstep,
      replaceAll_walk_strtail k rep body' M (fun d hd => hb d (by simp [hd])) hM]
    rfl

/-- Two distinct brace-free keys cannot confuse the pattern matcher:
`k ++ '}' ++ u` is never a prefix of `k2 ++ '}' ++ v` when `k ≠ k2`. -/
theorem key_mismatch :
    ∀ (k k2 u v : List Char), k ≠ k2 → (∀ c ∈ k, c ≠ rb) → (∀ c ∈ k2, c ≠ rb) →
      (k ++ rb :: u).isPrefixOf (k2 ++ rb :: v) = false
  | [], [], _, _, hne, _, _ => absurd rfl hne
  | [], c2 :: k2', u, v, _, _, h2 => by
    have hb : (rb == c2) = false := beq_eq_false_iff_ne.mpr (Ne.symm (h2 c2 (by simp)))
    simp [List.isPrefixOf, hb]
  | c :: k', [], u, v, _, h1, _ => by
    have hb : (c == rb) = false := beq_eq_false_iff_ne.mpr (h1 c (by simp))
    simp [List.isPrefixOf, hb]
  | c :: k', c2 :: k2', u, v, hne, h1, h2 => by
    by_cases hcc : c = c2
    · subst hcc
      have hne' : k' ≠ k2' := by
        intro h
        exact hne (by rw [h])
      have := key_mismatch k' k2' u v hne' (fun d hd => h1 d (by simp [hd]))
        (fun d hd => h2 d (by simp [hd]))
      simp [List.isPrefixOf, this]
    · have hb : (c == c2) = false := beq_eq_false_iff_ne.mpr hcc
      simp [List.isPrefixOf, hb]

theorem qph_not_prefix_other (k k2 : List Char) (M : List Char) (hne : k ≠ k2)
    (hk : ∀ c ∈ k, c ≠ rb) (hk2 : ∀ c ∈ k2, c ≠ rb) :
    (quotedPh k).isPrefixOf ('"' :: lb :: lb :: (k2 ++ rb :: rb :: '"' :: M)) = false := by
  have hkey := key_mismatch k k2 (rb :: ['"']) (rb :: '"' :: M) hne hk hk2
  have hshape : k ++ [rb, rb, '"'] = k ++ rb :: (rb :: ['"']) := by simp
  simp only [quotedPh, List.cons_append, List.isPrefixOf, beq_self_eq_true, Bool.true_and]
  rw [show k ++ [rb, rb, '"'] = k ++ rb :: [rb, '"'] from rfl]
  simp [hkey]

/-- Walk a whole quoted other-key placeholder occurrence. -/
theorem replaceAll_walk_other_ph (k rep k2 M : List Char) (hne : k ≠ k2)
    (hk : ∀ c ∈ k, c ≠ rb) (hk2 : ∀ c ∈ k2, c ≠ rb ∧ c ≠ '"')
    (hM : M.head? ≠ some lb) :
    replaceAll (quotedPh k) rep ('"' :: phChars k2 ++ '"' :: M) =
      '"' :: phChars k2 ++ '"' :: replaceAll (quotedPh k) rep M := by
  have hs : '"' :: phChars k2 ++ '"' :: M =
      '"' :: lb :: lb :: (k2 ++ rb :: rb :: '"' :: M) := by
    simp [phChars]
  rw [hs]
  rw [replaceAll_cons_neg _ _ _ _
    (qph_not_prefix_other k k2 M hne hk (fun c hc => (hk2 c hc).1))]
  have hwalk := replaceAll_walk_no_quote k rep (lb :: lb :: (k2 ++ [rb, rb])) ('"' :: M)
    (by
      intro c hc
      simp at hc
      rcases hc with h | h | h
      · subst h; decide
      · exact (hk2 c h).2
      · subst h; decide)
  have hshape2 : lb :: lb :: (k2 ++ rb :: rb :: '"' :: M) =
      (lb :: lb :: (k2 ++ [rb, rb])) ++ '"' :: M := by simp
  rw [hshape2, hwalk]
  have hend : replaceAll (quotedPh k) rep ('"' :: M) = '"' :: replaceAll (quotedPh k) rep M := by
    cases M with
    | nil => rw [replaceAll_cons_neg _ _ _ _ (qph_not_prefix_single k)]
    | cons d M' =>
      have hd : d ≠ lb := by
        intro h
        exact hM (by simp [h])
      rw [replaceAll_cons_neg _ _ _ _ (qph_not_prefix_second k d M' hd)]
  rw [hend]
  simp [phChars]

/-- Matching a same-key placeholder occurrence replaces it. -/
theorem replaceAll_match_ph (k rep M : List Char) :
    replaceAll (quotedPh k) rep ('"' :: phChars k ++ '"' :: M) =
      rep ++ replaceAll (quotedPh k) rep M := by
  have hs : '"' :: phChars k ++ '"' :: M = quotedPh k ++ M := by
    simp [phChars, quotedPh]
  rw [hs, replaceAll_self_prefix _ _ _ (quotedPh_ne_nil k)]

/-! ### Escaping lemmas -/

theorem escChar_plain (c : Char) (h : plainChar c = true) : escChar c = [c] := by
  simp only [plainChar, Bool.and_eq_true, decide_eq_true_eq, ne_eq] at h
  obtain ⟨⟨⟨h1, h2⟩, h3⟩, h4⟩ := h
  have hn : c ≠ '\n' := by intro he; subst he; exact absurd h1 (by decide)
  have hr : c ≠ '\r' := by intro he; subst he; exact absurd h1 (by decide)
  have ht : c ≠ '\t' := by intro he; subst he; exact absurd h1 (by decide)
  have hb : c ≠ Char.ofNat 8 := by intro he; subst he; exact absurd h1 (by decide)
  have hf : c ≠ Char.ofNat 12 := by intro he; subst he; exact absurd h1 (by decide)
  simp [escChar, h3, h4, hn, hr, ht, hb, hf, h1, h2]

theorem escJson_plain : ∀ s : List Char, (∀ c ∈ s, plainChar c = true) → escJson s = s
  | [], _ => rfl
  | c :: cs, h => by
    rw [show escJson (c :: cs) = escChar c ++ escJson cs from rfl,
      escChar_plain c (h c (by simp)), escJson_plain cs (fun d hd => h d (by simp [hd]))]
    rfl

theorem escChar_no_lb (c : Char) (hg : goodChar c = true) (hlb : c ≠ lb) :
    ∀ d ∈ escChar c, d ≠ lb := by
  simp only [goodChar, Bool.or_eq_true, decide_eq_true_eq] at hg
  rcases hg with ((((hp | he) | he) | he) | he) | he
  · rw [escChar_plain c hp]
    intro d hd
    simp at hd
    subst hd
    exact hlb
  all_goals (subst he; decide)

theorem replaceAll_single (a : Char) (r : List Char) :
    ∀ s, replaceAll [a] r s = concatRepl a r s
  | [] => rfl
  | c :: cs => by
    by_cases hc : c = a
    · have hpre : [a].isPrefixOf (c :: cs) = true := by simp [List.isPrefixOf, hc]
      rw [replaceAll_cons_pos [a] r c cs (by simp) hpre]
      rw [show (c :: cs).drop [a].length = cs from rfl, replaceAll_single a r cs]
      simp [concatRepl, hc]
    · have hpre : [a].isPrefixOf (c :: cs) = false := by
        have hb : (a == c) = false := beq_eq_false_iff_ne.mpr (Ne.symm hc)
        simp [List.isPrefixOf, hb]
      rw [replaceAll_cons_neg [a] r c cs hpre, replaceAll_single a r cs]
      simp [concatRepl, hc]

theorem concatRepl_append (a : Char) (r : List Char) :
    ∀ x y, concatRepl a r (x ++ y) = concatRepl a r x ++ concatRepl a r y
  | [], _ => rfl
  | c :: cs, y => by
    show (if c = a then r else [c]) ++ concatRepl a r (cs ++ y) =
      ((if c = a then r else [c]) ++ concatRepl a r cs) ++ concatRepl a r y
    rw [concatRepl_append a r cs y, List.append_assoc]

theorem pyEscape_append (x y : List Char) :
    pyEscape (x ++ y) = pyEscape x ++ pyEscape y := by
  simp [pyEscape, replaceAll_single, concatRepl_append]

theorem pyEscape_eq_escJson : ∀ s : List Char, (∀ c ∈ s, goodChar c = true) →
    pyEscape s = escJson s
  | [], _ => rfl
  | c :: cs, h => by
    have hcons : pyEscape (c :: cs) = pyEscape [c] ++ pyEscape cs := by
      have := pyEscape_append [c] cs
      simpa using this
    rw [hcons, pyEscape_eq_escJson cs (fun d hd => h d (by simp [hd])),
      show escJson (c :: cs) = escChar c ++ escJson cs from rfl]
    congr 1
    have hg := h c (by simp)
    simp only [goodChar, Bool.or_eq_true, decide_eq_true_eq] at hg
    rcases hg with ((((hp | he) | he) | he) | he) | he
    · rw [escChar_plain c hp]
      simp only [plainChar, Bool.and_eq_true, decide_eq_true_eq, ne_eq] at hp
      obtain ⟨⟨⟨h1, h2⟩, h3⟩, h4⟩ := hp
      have hn : c ≠ '\n' := by intro hx; subst hx; exact absurd h1 (by decide)
      have hr : c ≠ '\r' := by intro hx; subst hx; exact absurd h1 (by decide)
      have ht : c ≠ '\t' := by intro hx; subst hx; exact absurd h1 (by decide)
      simp [pyEscape, replaceAll_single, concatRepl, h3, h4, hn, hr, ht]
    all_goals (subst he; rfl)

/-! ### Placeholder-shape lemmas -/

theorem keyOkB_parts (k : List Char) (hk : keyOkB k = true) :
    k ≠ [] ∧ ∀ c ∈ k, keyChar c = true := by
  simp only [keyOkB, Bool.and_eq_true, Bool.not_eq_true', List.isEmpty_eq_false_iff_exists_mem,
    List.all_eq_true] at hk
  obtain ⟨⟨x, hx⟩, h2⟩ := hk
  exact ⟨fun h => by subst h; simp at hx, h2⟩

theorem keyChar_parts (c : Char) (h : keyChar c = true) :
    plainChar c = true ∧ c ≠ lb ∧ c ≠ rb := by
  simp only [keyChar, Bool.and_eq_true, decide_eq_true_eq, ne_eq] at h
  exact ⟨h.1.1, h.1.2, h.2⟩

theorem plainChar_ne_quote (c : Char) (h : plainChar c = true) : c ≠ '"' := by
  simp only [plainChar, Bool.and_eq_true, decide_eq_true_eq, ne_eq] at h
  exact h.1.2

theorem phChars_plain (k : List Char) (hk : keyOkB k = true) :
    ∀ c ∈ phChars k, plainChar c = true := by
  intro c hc
  simp only [phChars] at hc
  rcases List.mem_cons.mp hc with h | hc2
  · subst h; decide
  rcases List.mem_cons.mp hc2 with h | hc3
  · subst h; decide
  rcases List.mem_append.mp hc3 with h | h
  · exact (keyChar_parts c ((keyOkB_parts k hk).2 c h)).1
  · have hr : c = rb := by simpa using h
    subst hr; decide

theorem escJson_phChars (k : List Char) (hk : keyOkB k = true) :
    escJson (phChars k) = phChars k :=
  escJson_plain _ (phChars_plain k hk)

theorem phChars_inj (a b : List Char) (h : phChars a = phChars b) : a = b := by
  simp only [phChars] at h
  injection h with h1 h
  injection h with h2 h
  exact List.append_cancel_right h

theorem phKey?_phChars (k : List Char) (hk : keyOkB k = true) : phKey? (phChars k) = some k := by
  obtain ⟨hne, hall⟩ := keyOkB_parts k hk
  have hlp : 1 ≤ k.length := List.length_pos.mpr hne
  have hlen : (k ++ [rb, rb]).length - 2 = k.length := by simp
  have hdrop : (k ++ [rb, rb]).drop k.length = [rb, rb] := List.drop_left k [rb, rb]
  have htake : (k ++ [rb, rb]).take k.length = k := List.take_left k [rb, rb]
  have hallrb : (k.all fun d => d ≠ rb) = true := by
    simp only [List.all_eq_true, decide_eq_true_eq]
    exact fun c hc => (keyChar_parts c (hall c hc)).2.2
  show phKey? (lb :: lb :: (k ++ [rb, rb])) = some k
  have hcond : True ∧ True ∧ (k ++ [rb, rb]).length ≥ 3 ∧
      (k ++ [rb, rb]).drop ((k ++ [rb, rb]).length - 2) = [rb, rb] ∧
      ((k ++ [rb, rb]).take ((k ++ [rb, rb]).length - 2)).all (fun d => d ≠ rb) = true := by
    refine ⟨trivial, trivial, by simp; omega, by rw [hlen, hdrop], by rw [hlen, htake]; exact hallrb⟩
  simp only [phKey?]
  rw [if_pos hcond, hlen, htake]

theorem phKey?_none_of_no_lb (s : List Char) (h : ∀ c ∈ s, c ≠ lb) : phKey? s = none := by
  cases s with
  | nil => rfl
  | cons c1 rest =>
    cases rest with
    | nil => rfl
    | cons c2 rest2 =>
      have h1 : c1 ≠ lb := h c1 (by simp)
      simp only [phKey?]
      rw [if_neg]
      intro hcon
      exact h1 hcon.1

theorem plainStrB_parts (s : List Char) (h : plainStrB s = true) :
    ∀ c ∈ s, goodChar c = true ∧ c ≠ lb ∧ c ≠ rb := by
  simp only [plainStrB, List.all_eq_true, Bool.and_eq_true, decide_eq_true_eq, ne_eq] at h
  intro c hc
  exact ⟨(h c hc).1.1, (h c hc).1.2, (h c hc).2⟩

theorem plainStr_ne_phChars (s k : List Char) (hs : plainStrB s = true) (hk : keyOkB k = true) :
    s ≠ phChars k := by
  intro he
  have h1 := phKey?_none_of_no_lb s (fun c hc => (plainStrB_parts s hs c hc).2.1)
  rw [he, phKey?_phChars k hk] at h1
  exact Option.noConfusion h1

theorem escJson_no_lb : ∀ s : List Char, (∀ c ∈ s, goodChar c = true ∧ c ≠ lb) →
    ∀ d ∈ escJson s, d ≠ lb
  | [], _ => by simp [escJson]
  | c :: cs, h => by
    intro d hd
    rw [show escJson (c :: cs) = escChar c ++ escJson cs from rfl] at hd
    rcases List.mem_append.mp hd with hm | hm
    · exact escChar_no_lb c (h c (by simp)).1 (h c (by simp)).2 d hm
    · exact escJson_no_lb cs (fun e he => h e (by simp [he])) d hm

/-! ### Digit strings -/

theorem digitChar_range (d : Nat) (hd : d < 10) :
    48 ≤ (digitChar d).toNat ∧ (digitChar d).toNat ≤ 57 := by
  interval_cases d <;> decide

theorem natCharsAux_chars : ∀ fuel n : Nat, ∀ c ∈ natCharsAux fuel n,
    48 ≤ c.toNat ∧ c.toNat ≤ 57 := by
  intro fuel
  induction fuel with
  | zero => intro n c hc; simp [natCharsAux] at hc
  | succ f ih =>
    intro n c hc
    simp only [natCharsAux] at hc
    by_cases hn : n = 0
    · simp [hn] at hc
    · rw [if_neg hn] at hc
      rcases List.mem_append.mp hc with hm | hm
      · exact ih (n / 10) c hm
      · simp at hm
        subst hm
        exact digitChar_range (n % 10) (Nat.mod_lt _ (by norm_num))

theorem natChars_chars (n : Nat) : ∀ c ∈ natChars n, 48 ≤ c.toNat ∧ c.toNat ≤ 57 := by
  intro c hc
  unfold natChars at hc
  by_cases hn : n = 0
  · simp [hn] at hc
    subst hc
    decide
  · rw [if_neg hn] at hc
    exact natCharsAux_chars n n c hc

theorem intChars_safe (n : Int) : ∀ c ∈ intChars n, c ≠ '"' ∧ c ≠ lb ∧ c ≠ rb := by
  intro c hc
  have hrange : c = '-' ∨ (48 ≤ c.toNat ∧ c.toNat ≤ 57) := by
    cases n with
    | ofNat m => exact Or.inr (natChars_chars m c hc)
    | negSucc m =>
      simp only [intChars, List.mem_cons] at hc
      rcases hc with h | h
      · exact Or.inl h
      · exact Or.inr (natChars_chars (m + 1) c h)
  rcases hrange with h | h
  · subst h; refine ⟨by decide, by decide, by decide⟩
  · refine ⟨?_, ?_, ?_⟩ <;> (intro he; subst he; revert h; decide)

/-! ### Value rendering -/

theorem pyDumps_valueNode (k : List Char) (v : PValue) (hv : paramOk (k, v) = true) :
    pyDumps (valueNode v) = renderValue v := by
  cases v with
  | pbool b => cases b <;> rfl
  | pint n => rfl
  | pother s => simp [paramOk] at hv
  | pstr s =>
    have hs : plainStrB s = true := by
      simp only [paramOk, Bool.and_eq_true] at hv
      exact hv.2
    show '"' :: escJson s ++ ['"'] = '"' :: pyEscape s ++ ['"']
    rw [pyEscape_eq_escJson s (fun c hc => (plainStrB_parts s hs c hc).1)]

theorem wft_valueNode (k : List Char) (v : PValue) (hv : paramOk (k, v) = true) :
    wft (valueNode v) = true := by
  cases v with
  | pbool b => rfl
  | pint n => rfl
  | pother s => simp [paramOk] at hv
  | pstr s =>
    have hs : plainStrB s = true := by
      simp only [paramOk, Bool.and_eq_true] at hv
      exact hv.2
    show wft (.jstr s) = true
    rw [show wft (.jstr s) = (match phKey? s with
      | some k => keyOkB k
      | none => plainStrB s) from rfl]
    rw [phKey?_none_of_no_lb s (fun c hc => (plainStrB_parts s hs c hc).2.1)]
    exact hs

/-! ### The serialized-substitution / tree-substitution correspondence

`substWalk` shows `str.replace` on the serialized template acts exactly
like the structural walk `substK`, piece by piece over the
serialization. -/

theorem replaceAll_step (k rep : List Char) (c : Char) (s : List Char) (hc : c ≠ '"') :
    replaceAll (quotedPh k) rep (c :: s) = c :: replaceAll (quotedPh k) rep s :=
  replaceAll_cons_neg _ _ _ _ (qph_not_prefix_head k c s hc)

theorem replaceAll_walk_string (k rep body M : List Char)
    (hbody : ∀ c ∈ body, c ≠ lb) (hM : M.head? ≠ some lb) :
    replaceAll (quotedPh k) rep ('"' :: (body ++ '"' :: M)) =
      '"' :: (body ++ '"' :: replaceAll (quotedPh k) rep M) := by
  have hopen : (quotedPh k).isPrefixOf ('"' :: (body ++ '"' :: M)) = false := by
    cases body with
    | nil => exact qph_not_prefix_second k '"' M (by decide)
    | cons e body' => exact qph_not_prefix_second k e _ (hbody e (by simp))
  rw [replaceAll_cons_neg _ _ _ _ hopen, replaceAll_walk_strtail k rep body M hbody hM]

theorem phKey?_eq_some (s k : List Char) (h : phKey? s = some k) : s = phChars k := by
  cases s with
  | nil => exact Option.noConfusion h
  | cons c1 rest0 =>
    cases rest0 with
    | nil => exact Option.noConfusion h
    | cons c2 rest =>
      simp only [phKey?] at h
      by_cases hcond : c1 = lb ∧ c2 = lb ∧ rest.length ≥ 3 ∧
          rest.drop (rest.length - 2) = [rb, rb] ∧
          (rest.take (rest.length - 2)).all (fun d => d ≠ rb) = true
      · rw [if_pos hcond] at h
        obtain ⟨h1, h2, _, h4, _⟩ := hcond
        have hk : k = rest.take (rest.length - 2) := (Option.some.injEq _ _ ▸ h).symm
        subst h1
        subst h2
        have hrest : rest = List.take (rest.length - 2) rest ++ [rb, rb] := by
          conv_lhs => rw [← List.take_append_drop (rest.length - 2) rest]
          rw [h4]
        show lb :: lb :: rest = lb :: lb :: (k ++ [rb, rb])
        rw [hk]
        exact congrArg (fun l => lb :: lb :: l) hrest
      · rw [if_neg hcond] at h
        exact Option.noConfusion h

theorem headNotLb_cons (c : Char) (M : List Char) (hc : c ≠ lb) :
    (c :: M).head? ≠ some lb := by
  simp [hc]

mutual
theorem substWalk (k : List Char) (v : PValue) (hk : keyOkB k = true)
    (hv : paramOk (k, v) = true) :
    ∀ (u : Json), wft u = true → ∀ (M : List Char), M.head? ≠ some lb →
      replaceAll (quotedPh k) (renderValue v) (pyDumps u ++ M) =
        pyDumps (substK k v u) ++ replaceAll (quotedPh k) (renderValue v) M
  | .jnull, _, M, _ => by
    exact replaceAll_walk_no_quote k (renderValue v) "null".data M (by decide)
  | .jbool true, _, M, _ => by
    exact replaceAll_walk_no_quote k (renderValue v) "true".data M (by decide)
  | .jbool false, _, M, _ => by
    exact replaceAll_walk_no_quote k (renderValue v) "false".data M (by decide)
  | .jint n, _, M, _ => by
    exact replaceAll_walk_no_quote k (renderValue v) (intChars n) M
      (fun c hc => (intChars_safe n c hc).1)
  | .jstr s, hwf, M, hM => by
    have hwf' : (match phKey? s with
        | some k2 => keyOkB k2
        | none => plainStrB s) = true := hwf
    cases hph : phKey? s with
    | some k2 =>
      rw [hph] at hwf'
      have hshape : s = phChars k2 := phKey?_eq_some s k2 hph
      subst hshape
      by_cases hkk : k2 = k
      · subst hkk
        have e1 : pyDumps (Json.jstr (phChars k2)) ++ M =
            '"' :: phChars k2 ++ '"' :: M := by
          show ('"' :: escJson (phChars k2) ++ ['"']) ++ M = _
          rw [escJson_phChars k2 hwf']
          simp
        have e2 : substK k2 v (Json.jstr (phChars k2)) = valueNode v := by
          simp [substK]
        rw [e1, replaceAll_match_ph, e2, pyDumps_valueNode k2 v hv]
      · have hne : k ≠ k2 := fun h => hkk h.symm
        have hkparts := keyOkB_parts k hk
        have hk2parts := keyOkB_parts k2 hwf'
        have e1 : pyDumps (Json.jstr (phChars k2)) ++ M =
            '"' :: phChars k2 ++ '"' :: M := by
          show ('"' :: escJson (phChars k2) ++ ['"']) ++ M = _
          rw [escJson_phChars k2 hwf']
          simp
        have e2 : substK k v (Json.jstr (phChars k2)) = Json.jstr (phChars k2) := by
          have : phChars k2 ≠ phChars k := fun h => hkk (phChars_inj k2 k h)
          simp [substK, this]
        rw [e1, replaceAll_walk_other_ph k (renderValue v) k2 M hne
          (fun c hc => (keyChar_parts c (hkparts.2 c hc)).2.2)
          (fun c hc => ⟨(keyChar_parts c (hk2parts.2 c hc)).2.2,
            plainChar_ne_quote c (keyChar_parts c (hk2parts.2 c hc)).1⟩) hM, e2]
        show '"' :: phChars k2 ++ '"' :: _ =
          ('"' :: escJson (phChars k2) ++ ['"']) ++ _
        rw [escJson_phChars k2 hwf']
        simp
    | none =>
      rw [hph] at hwf'
      have hbody : ∀ c ∈ escJson s, c ≠ lb :=
        escJson_no_lb s (fun c hc =>
          ⟨(plainStrB_parts s hwf' c hc).1, (plainStrB_parts s hwf' c hc).2.1⟩)
      have e1 : pyDumps (Json.jstr s) ++ M = '"' :: (escJson s ++ '"' :: M) := by
        show ('"' :: escJson s ++ ['"']) ++ M = _
        simp
      have e2 : substK k v (Json.jstr s) = Json.jstr s := by
        simp [substK, plainStr_ne_phChars s k hwf' hk]
      rw [e1, replaceAll_walk_string k (renderValue v) (escJson s) M hbody hM, e2]
      show '"' :: (escJson s ++ '"' :: _) = ('"' :: escJson s ++ ['"']) ++ _
      simp
  | .jarr xs, hwf, M, hM => by
    have hwf' : wftArr xs = true := hwf
    have e1 : pyDumps (Json.jarr xs) ++ M = '[' :: (pyDumpsArr xs ++ (']' :: M)) := by
      show ('[' :: pyDumpsArr xs ++ [']']) ++ M = _
      simp
    rw [e1, replaceAll_step k (renderValue v) '[' _ (by decide),
      substWalkArr k v hk hv xs hwf' (']' :: M) (headNotLb_cons ']' M (by decide)),
      replaceAll_step k (renderValue v) ']' M (by decide)]
    show '[' :: (pyDumpsArr (substKArr k v xs) ++ ']' :: _) =
      ('[' :: pyDumpsArr (substKArr k v xs) ++ [']']) ++ _
    simp
  | .jobj fs, hwf, M, hM => by
    have hwf' : wftObj fs = true := hwf
    have e1 : pyDumps (Json.jobj fs) ++ M = lb :: (pyDumpsObj fs ++ (rb :: M)) := by
      show (lb :: pyDumpsObj fs ++ [rb]) ++ M = _
      simp
    rw [e1, replaceAll_step k (renderValue v) lb _ (by decide),
      substWalkObj k v hk hv fs hwf' (rb :: M) (headNotLb_cons rb M (by decide)),
      replaceAll_step k (renderValue v) rb M (by decide)]
    show lb :: (pyDumpsObj (substKObj k v fs) ++ rb :: _) =
      (lb :: pyDumpsObj (substKObj k v fs) ++ [rb]) ++ _
    simp
theorem substWalkArr (k : List Char) (v : PValue) (hk : keyOkB k = true)
    (hv : paramOk (k, v) = true) :
    ∀ (xs : JsonArr), wftArr xs = true → ∀ (M : List Char), M.head? ≠ some lb →
      replaceAll (quotedPh k) (renderValue v) (pyDumpsArr xs ++ M) =
        pyDumpsArr (substKArr k v xs) ++ replaceAll (quotedPh k) (renderValue v) M
  | .anil, _, M, _ => by simp [pyDumpsArr, substKArr]
  | .acons h t, hwf, M, hM => by
    obtain ⟨hwh, hwt⟩ : wft h = true ∧ wftArr t = true := by simpa [wftArr] using hwf
    have hM1 : (pyDumpsArrRest t ++ M).head? ≠ some lb := by
      cases t with
      | anil => simpa [pyDumpsArrRest] using hM
      | acons h2 t2 => exact headNotLb_cons ',' _ (by decide)
    have e1 : pyDumpsArr (JsonArr.acons h t) ++ M =
        pyDumps h ++ (pyDumpsArrRest t ++ M) := by
      show (pyDumps h ++ pyDumpsArrRest t) ++ M = _
      simp
    rw [e1, substWalk k v hk hv h hwh _ hM1,
      substWalkArrRest k v hk hv t hwt M hM]
    show pyDumps (substK k v h) ++ (pyDumpsArrRest (substKArr k v t) ++ _) =
      (pyDumps (substK k v h) ++ pyDumpsArrRest (substKArr k v t)) ++ _
    simp
theorem substWalkArrRest (k : List Char) (v : PValue) (hk : keyOkB k = true)
    (hv : paramOk (k, v) = true) :
    ∀ (xs : JsonArr), wftArr xs = true → ∀ (M : List Char), M.head? ≠ some lb →
      replaceAll (quotedPh k) (renderValue v) (pyDumpsArrRest xs ++ M) =
        pyDumpsArrRest (substKArr k v xs) ++ replaceAll (quotedPh k) (renderValue v) M
  | .anil, _, M, _ => by simp [pyDumpsArrRest, substKArr]
  | .acons h t, hwf, M, hM => by
    obtain ⟨hwh, hwt⟩ : wft h = true ∧ wftArr t = true := by simpa [wftArr] using hwf
    have hM1 : (pyDumpsArrRest t ++ M).head? ≠ some lb := by
      cases t with
      | anil => simpa [pyDumpsArrRest] using hM
      | acons h2 t2 => exact headNotLb_cons ',' _ (by decide)
    have e1 : pyDumpsArrRest (JsonArr.acons h t) ++ M =
        ',' :: ' ' :: (pyDumps h ++ (pyDumpsArrRest t ++ M)) := by
      show (',' :: ' ' :: pyDumps h ++ pyDumpsArrRest t) ++ M = _
      simp
    rw [e1, replaceAll_step k (renderValue v) ',' _ (by decide),
      replaceAll_step k (renderValue v) ' ' _ (by decide),
      substWalk k v hk hv h hwh _ hM1,
      substWalkArrRest k v hk hv t hwt M hM]
    show ',' :: ' ' :: (pyDumps (substK k v h) ++ (pyDumpsArrRest (substKArr k v t) ++ _)) =
      (',' :: ' ' :: pyDumps (substK k v h) ++ pyDumpsArrRest (substKArr k v t)) ++ _
    simp
theorem substWalkObj (k : List Char) (v : PValue) (hk : keyOkB k = true)
    (hv : paramOk (k, v) = true) :
    ∀ (fs : JsonObj), wftObj fs = true → ∀ (M : List Char), M.head? ≠ some lb →
      replaceAll (quotedPh k) (renderValue v) (pyDumpsObj fs ++ M) =
        pyDumpsObj (substKObj k v fs) ++ replaceAll (quotedPh k) (renderValue v) M
  | .onil, _, M, _ => by simp [pyDumpsObj, substKObj]
  | .ocons key val t, hwf, M, hM => by
    obtain ⟨hkey, hwval, hwt⟩ : plainStrB key = true ∧ wft val = true ∧ wftObj t = true := by
      simpa [wftObj, and_assoc] using hwf
    have hbody : ∀ c ∈ escJson key, c ≠ lb :=
      escJson_no_lb key (fun c hc =>
        ⟨(plainStrB_parts key hkey c hc).1, (plainStrB_parts key hkey c hc).2.1⟩)
    have hM1 : (pyDumpsObjRest t ++ M).head? ≠ some lb := by
      cases t with
      | onil => simpa [pyDumpsObjRest] using hM
      | ocons k2 v2 t2 => exact headNotLb_cons ',' _ (by decide)
    have e1 : pyDumpsObj (JsonObj.ocons key val t) ++ M =
        '"' :: (escJson key ++ '"' :: (':' :: ' ' :: (pyDumps val ++ (pyDumpsObjRest t ++ M)))) := by
      show ('"' :: escJson key ++ '"' :: ':' :: ' ' :: pyDumps val ++ pyDumpsObjRest t) ++ M = _
      simp
    rw [e1, replaceAll_walk_string k (renderValue v) (escJson key) _ hbody
        (headNotLb_cons ':' _ (by decide)),
      replaceAll_step k (renderValue v) ':' _ (by decide),
      replaceAll_step k (renderValue v) ' ' _ (by decide),
      substWalk k v hk hv val hwval _ hM1,
      substWalkObjRest k v hk hv t hwt M hM]
    show '"' :: (escJson key ++ '"' ::
        (':' :: ' ' :: (pyDumps (substK k v val) ++ (pyDumpsObjRest (substKObj k v t) ++ _)))) =
      ('"' :: escJson key ++ '"' :: ':' :: ' ' :: pyDumps (substK k v val) ++
        pyDumpsObjRest (substKObj k v t)) ++ _
    simp
theorem substWalkObjRest (k : List Char) (v : PValue) (hk : keyOkB k = true)
    (hv : paramOk (k, v) = true) :
    ∀ (fs : JsonObj), wftObj fs = true → ∀ (M : List Char), M.head? ≠ some lb →
      replaceAll (quotedPh k) (renderValue v) (pyDumpsObjRest fs ++ M) =
        pyDumpsObjRest (substKObj k v fs) ++ replaceAll (quotedPh k) (renderValue v) M
  | .onil, _, M, _ => by simp [pyDumpsObjRest, substKObj]
  | .ocons key val t, hwf, M, hM => by
    obtain ⟨hkey, hwval, hwt⟩ : plainStrB key = true ∧ wft val = true ∧ wftObj t = true := by
      simpa [wftObj, and_assoc] using hwf
    have hbody : ∀ c ∈ escJson key, c ≠ lb :=
      escJson_no_lb key (fun c hc =>
        ⟨(plainStrB_parts key hkey c hc).1, (plainStrB_parts key hkey c hc).2.1⟩)
    have hM1 : (pyDumpsObjRest t ++ M).head? ≠ some lb := by
      cases t with
      | onil => simpa [pyDumpsObjRest] using hM
      | ocons k2 v2 t2 => exact headNotLb_cons ',' _ (by decide)
    have e1 : pyDumpsObjRest (JsonObj.ocons key val t) ++ M =
        ',' :: ' ' :: ('"' ::
          (escJson key ++ '"' :: (':' :: ' ' :: (pyDumps val ++ (pyDumpsObjRest t ++ M))))) := by
      show (',' :: ' ' :: '"' :: escJson key ++ '"' :: ':' :: ' ' :: pyDumps val ++
        pyDumpsObjRest t) ++ M = _
      simp
    rw [e1, replaceAll_step k (renderValue v) ',' _ (by decide),
      replaceAll_step k (renderValue v) ' ' _ (by decide),
      replaceAll_walk_string k (renderValue v) (escJson key) _ hbody
        (headNotLb_cons ':' _ (by decide)),
      replaceAll_step k (renderValue v) ':' _ (by decide),
      replaceAll_step k (renderValue v) ' ' _ (by decide),
      substWalk k v hk hv val hwval _ hM1,
      substWalkObjRest k v hk hv t hwt M hM]
    show ',' :: ' ' :: ('"' :: (escJson key ++ '"' ::
        (':' :: ' ' :: (pyDumps (substK k v val) ++ (pyDumpsObjRest (substKObj k v t) ++ _))))) =
      (',' :: ' ' :: '"' :: escJson key ++ '"' :: ':' :: ' ' :: pyDumps (substK k v val) ++
        pyDumpsObjRest (substKObj k v t)) ++ _
    simp
end

theorem paramOk_key (k : List Char) (v : PValue) (h : paramOk (k, v) = true) :
    keyOkB k = true := by
  cases v <;> simp_all [paramOk]

mutual
theorem wft_substK (k : List Char) (v : PValue) (hv : paramOk (k, v) = true) :
    ∀ u : Json, wft u = true → wft (substK k v u) = true
  | .jnull, _ => rfl
  | .jbool b, _ => rfl
  | .jint n, _ => rfl
  | .jstr s, hwf => by
    by_cases hph : s = phChars k
    · rw [show substK k v (Json.jstr s) = valueNode v from by simp [substK, hph]]
      exact wft_valueNode k v hv
    · rw [show substK k v (Json.jstr s) = Json.jstr s from by simp [substK, hph]]
      exact hwf
  | .jarr xs, hwf => by
    show wftArr (substKArr k v xs) = true
    exact wft_substKArr k v hv xs hwf
  | .jobj fs, hwf => by
    show wftObj (substKObj k v fs) = true
    exact wft_substKObj k v hv fs hwf
theorem wft_substKArr (k : List Char) (v : PValue) (hv : paramOk (k, v) = true) :
    ∀ xs : JsonArr, wftArr xs = true → wftArr (substKArr k v xs) = true
  | .anil, _ => rfl
  | .acons h t, hwf => by
    obtain ⟨hwh, hwt⟩ : wft h = true ∧ wftArr t = true := by simpa [wftArr] using hwf
    show (wft (substK k v h) && wftArr (substKArr k v t)) = true
    rw [wft_substK k v hv h hwh, wft_substKArr k v hv t hwt]
    rfl
theorem wft_substKObj (k : List Char) (v : PValue) (hv : paramOk (k, v) = true) :
    ∀ fs : JsonObj, wftObj fs = true → wftObj (substKObj k v fs) = true
  | .onil, _ => rfl
  | .ocons key val t, hwf => by
    obtain ⟨hkey, hwval, hwt⟩ : plainStrB key = true ∧ wft val = true ∧ wftObj t = true := by
      simpa [wftObj, and_assoc] using hwf
    show (plainStrB key && wft (substK k v val) && wftObj (substKObj k v t)) = true
    rw [hkey, wft_substK k v hv val hwval, wft_substKObj k v hv t hwt]
    rfl
end

theorem wft_substTree : ∀ (ps : List (List Char × PValue)) (u : Json),
    (∀ kv ∈ ps, paramOk kv = true) → wft u = true → wft (substTree ps u) = true
  | [], u, _, hu => hu
  | (k, v) :: ps', u, hps, hu => by
    have hkv : paramOk (k, v) = true := hps (k, v) (by simp)
    show wft (substTree ps' (substK k v u)) = true
    exact wft_substTree ps' (substK k v u) (fun kv hm => hps kv (by simp [hm]))
      (wft_substK k v hkv u hu)

/-- The parameter loop on the serialized template computes the
serialization of the structural walk. -/
theorem applyParams_dumps : ∀ (ps : List (List Char × PValue)) (u : Json),
    (∀ kv ∈ ps, paramOk kv = true) → wft u = true →
    applyParams (pyDumps u) ps = pyDumps (substTree ps u)
  | [], _, _, _ => rfl
  | (k, v) :: ps', u, hps, hu => by
    have hkv : paramOk (k, v) = true := hps (k, v) (by simp)
    have hk : keyOkB k = true := paramOk_key k v hkv
    have hw := substWalk k v hk hkv u hu [] (by simp)
    rw [List.append_nil] at hw
    have hrepl : replaceAll (quotedPh k) (renderValue v) [] = [] := rfl
    rw [hrepl, List.append_nil] at hw
    show applyParams (replaceAll (quotedPh k) (renderValue v) (pyDumps u)) ps' = _
    rw [hw, applyParams_dumps ps' (substK k v u) (fun kv hm => hps kv (by simp [hm]))
      (wft_substK k v hkv u hu)]
    rfl

/-! ### Placeholder bookkeeping under substitution -/

theorem phList_valueNode (k : List Char) (v : PValue) (hv : paramOk (k, v) = true) :
    phList (valueNode v) = [] := by
  cases v with
  | pbool b => rfl
  | pint n => rfl
  | pother s => simp [paramOk] at hv
  | pstr s =>
    have hs : plainStrB s = true := by
      simp only [paramOk, Bool.and_eq_true] at hv
      exact hv.2
    show (match phKey? s with
      | some k2 => [k2]
      | none => ([] : List (List Char))) = []
    rw [phKey?_none_of_no_lb s (fun c hc => (plainStrB_parts s hs c hc).2.1)]

mutual
theorem phList_substK (k : List Char) (v : PValue) (hv : paramOk (k, v) = true)
    (hk : keyOkB k = true) :
    ∀ u : Json, wft u = true →
      phList (substK k v u) = (phList u).filter (fun n => n ≠ k)
  | .jnull, _ => rfl
  | .jbool b, _ => rfl
  | .jint n, _ => rfl
  | .jstr s, hwf => by
    have hwf' : (match phKey? s with
        | some k2 => keyOkB k2
        | none => plainStrB s) = true := hwf
    cases hph : phKey? s with
    | some k2 =>
      rw [hph] at hwf'
      have hshape : s = phChars k2 := phKey?_eq_some s k2 hph
      subst hshape
      by_cases hkk : k2 = k
      · subst hkk
        rw [show substK k2 v (Json.jstr (phChars k2)) = valueNode v from by simp [substK],
          phList_valueNode k2 v hv]
        show ([] : List (List Char)) = (match phKey? (phChars k2) with
          | some k3 => [k3]
          | none => ([] : List (List Char))).filter (fun n => n ≠ k2)
        rw [phKey?_phChars k2 hwf']
        simp
      · have hne : phChars k2 ≠ phChars k := fun h => hkk (phChars_inj k2 k h)
        rw [show substK k v (Json.jstr (phChars k2)) = Json.jstr (phChars k2) from by
          simp [substK, hne]]
        show (match phKey? (phChars k2) with
          | some k3 => [k3]
          | none => ([] : List (List Char))) = (match phKey? (phChars k2) with
          | some k3 => [k3]
          | none => ([] : List (List Char))).filter (fun n => n ≠ k)
        rw [phKey?_phChars k2 hwf']
        simp [hkk]
    | none =>
      rw [hph] at hwf'
      rw [show substK k v (Json.jstr s) = Json.jstr s from by
        simp [substK, plainStr_ne_phChars s k hwf' hk]]
      show (match phKey? s with
        | some k3 => [k3]
        | none => ([] : List (List Char))) = (match phKey? s with
        | some k3 => [k3]
        | none => ([] : List (List Char))).filter (fun n => n ≠ k)
      rw [hph]
      rfl
  | .jarr xs, hwf => by
    show phListArr (substKArr k v xs) = (phListArr xs).filter (fun n => n ≠ k)
    exact phList_substKArr k v hv hk xs hwf
  | .jobj fs, hwf => by
    show phListObj (substKObj k v fs) = (phListObj fs).filter (fun n => n ≠ k)
    exact phList_substKObj k v hv hk fs hwf
theorem phList_substKArr (k : List Char) (v : PValue) (hv : paramOk (k, v) = true)
    (hk : keyOkB k = true) :
    ∀ xs : JsonArr, wftArr xs = true →
      phListArr (substKArr k v xs) = (phListArr xs).filter (fun n => n ≠ k)
  | .anil, _ => rfl
  | .acons h t, hwf => by
    obtain ⟨hwh, hwt⟩ : wft h = true ∧ wftArr t = true := by simpa [wftArr] using hwf
    show phList (substK k v h) ++ phListArr (substKArr k v t) = _
    rw [phList_substK k v hv hk h hwh, phList_substKArr k v hv hk t hwt]
    exact (List.filter_append _ _).symm
theorem phList_substKObj (k : List Char) (v : PValue) (hv : paramOk (k, v) = true)
    (hk : keyOkB k = true) :
    ∀ fs : JsonObj, wftObj fs = true →
      phListObj (substKObj k v fs) = (phListObj fs).filter (fun n => n ≠ k)
  | .onil, _ => rfl
  | .ocons key val t, hwf => by
    obtain ⟨hkey, hwval, hwt⟩ : plainStrB key = true ∧ wft val = true ∧ wftObj t = true := by
      simpa [wftObj, and_assoc] using hwf
    show phList (substK k v val) ++ phListObj (substKObj k v t) = _
    rw [phList_substK k v hv hk val hwval, phList_substKObj k v hv hk t hwt]
    exact (List.filter_append _ _).symm
end

theorem phList_substTree_nil : ∀ (ps : List (List Char × PValue)) (u : Json),
    (∀ kv ∈ ps, paramOk kv = true) → wft u = true →
    (∀ n ∈ phList u, ∃ v, (n, v) ∈ ps) →
    phList (substTree ps u) = []
  | [], u, _, _, hcov => by
    cases hl : phList u with
    | nil => exact hl
    | cons n rest =>
      obtain ⟨v, hv⟩ := hcov n (by rw [hl]; simp)
      simp at hv
  | (k, v) :: ps', u, hps, hu, hcov => by
    have hkv : paramOk (k, v) = true := hps (k, v) (by simp)
    show phList (substTree ps' (substK k v u)) = []
    refine phList_substTree_nil ps' (substK k v u) (fun kv hm => hps kv (by simp [hm]))
      (wft_substK k v hkv u hu) ?_
    intro n hn
    rw [phList_substK k v hkv (paramOk_key k v hkv) u hu] at hn
    have hmem := List.mem_filter.mp hn
    have hne : n ≠ k := by simpa using hmem.2
    obtain ⟨v2, hv2⟩ := hcov n hmem.1
    rcases List.mem_cons.mp hv2 with h | h
    · exact absurd (congrArg Prod.fst h) hne
    · exact ⟨v2, h⟩

theorem phList_substTree_mem : ∀ (ps : List (List Char × PValue)) (u : Json)
    (K : List Char), (∀ kv ∈ ps, paramOk kv = true) → wft u = true →
    K ∈ phList u → (∀ v, (K, v) ∉ ps) →
    K ∈ phList (substTree ps u)
  | [], _, _, _, _, hmem, _ => hmem
  | (k, v) :: ps', u, K, hps, hu, hmem, hnot => by
    have hkv : paramOk (k, v) = true := hps (k, v) (by simp)
    have hne : K ≠ k := by
      intro h
      subst h
      exact hnot v (by simp)
    show K ∈ phList (substTree ps' (substK k v u))
    refine phList_substTree_mem ps' (substK k v u) K (fun kv hm => hps kv (by simp [hm]))
      (wft_substK k v hkv u hu) ?_ (fun v2 hv2 => hnot v2 (by simp [hv2]))
    rw [phList_substK k v hkv (paramOk_key k v hkv) u hu]
    exact List.mem_filter.mpr ⟨hmem, by simpa using hne⟩

/-! ### Scanner lemmas -/

theorem scanAux_succ_cons (f : Nat) (c : Char) (cs : List Char) :
    scanAux (f+1) (c :: cs) =
      if c = lb then
        match cs with
        | c2 :: rest =>
          if c2 = lb then
            match rest.dropWhile (fun d => d ≠ rb) with
            | d1 :: d2 :: rest2 =>
              if d1 = rb ∧ d2 = rb ∧ rest.takeWhile (fun d => d ≠ rb) ≠ [] then
                rest.takeWhile (fun d => d ≠ rb) :: scanAux f rest2
              else scanAux f cs
            | _ => scanAux f cs
          else scanAux f cs
        | [] => []
      else scanAux f cs := rfl

theorem scanAux_succ_lb (f : Nat) (c2 : Char) (rest : List Char) :
    scanAux (f+1) (lb :: c2 :: rest) =
      if c2 = lb then
        match rest.dropWhile (fun d => d ≠ rb) with
        | d1 :: d2 :: rest2 =>
          if d1 = rb ∧ d2 = rb ∧ rest.takeWhile (fun d => d ≠ rb) ≠ [] then
            rest.takeWhile (fun d => d ≠ rb) :: scanAux f rest2
          else scanAux f (c2 :: rest)
        | _ => scanAux f (c2 :: rest)
      else scanAux f (c2 :: rest) := by
  rw [scanAux_succ_cons, if_pos rfl]

theorem dropWhile_rb_length : ∀ (l : List Char),
    (l.dropWhile (fun d => d ≠ rb)).length ≤ l.length
  | [] => Nat.le_refl 0
  | c :: cs => by
    rw [List.dropWhile_cons]
    by_cases hc : c = rb
    · rw [if_neg (by simp [hc])]
    · rw [if_pos (by simp [hc])]
      exact Nat.le_succ_of_le (dropWhile_rb_length cs)

theorem scanAux_congr :
    ∀ (f1 : Nat) (s : List Char) (f2 : Nat), s.length ≤ f1 → s.length ≤ f2 →
      scanAux f1 s = scanAux f2 s := by
  intro f1
  induction f1 with
  | zero =>
    intro s f2 h1 _
    have hs : s = [] := List.length_eq_zero.mp (Nat.le_zero.mp h1)
    subst hs
    cases f2 <;> rfl
  | succ f ih =>
    intro s f2 h1 h2
    cases s with
    | nil => cases f2 <;> rfl
    | cons c cs =>
      cases f2 with
      | zero => simp at h2
      | succ f2' =>
        by_cases hc : c = lb
        · subst hc
          cases cs with
          | nil => rfl
          | cons c2 rest =>
            rw [scanAux_succ_lb, scanAux_succ_lb]
            by_cases hc2 : c2 = lb
            · rw [if_pos hc2, if_pos hc2]
              cases hdrop : rest.dropWhile (fun d => d ≠ rb) with
              | nil =>
                dsimp only
                exact ih (c2 :: rest) f2' (by simp at h1 ⊢; omega) (by simp at h2 ⊢; omega)
              | cons d1 ds =>
                cases ds with
                | nil =>
                  dsimp only
                  exact ih (c2 :: rest) f2' (by simp at h1 ⊢; omega) (by simp at h2 ⊢; omega)
                | cons d2 rest2 =>
                  dsimp only
                  by_cases hcond : d1 = rb ∧ d2 = rb ∧ rest.takeWhile (fun d => d ≠ rb) ≠ []
                  · rw [if_pos hcond, if_pos hcond]
                    have hlen : rest2.length + 2 ≤ rest.length := by
                      have hle := dropWhile_rb_length rest
                      rw [hdrop] at hle
                      simp at hle
                      omega
                    rw [ih rest2 f2' (by simp at h1; omega) (by simp at h2; omega)]
                  · rw [if_neg hcond, if_neg hcond]
                    exact ih (c2 :: rest) f2' (by simp at h1 ⊢; omega) (by simp at h2 ⊢; omega)
            · rw [if_neg hc2, if_neg hc2]
              exact ih (c2 :: rest) f2' (by simp at h1 ⊢; omega) (by simp at h2 ⊢; omega)
        · rw [scanAux_succ_cons, scanAux_succ_cons, if_neg hc, if_neg hc]
          exact ih cs f2' (by simp at h1; omega) (by simp at h2; omega)

theorem findTokenNames_cons_ne (c : Char) (cs : List Char) (hc : c ≠ lb) :
    findTokenNames (c :: cs) = findTokenNames cs := by
  show scanAux (cs.length + 1 + 1) (c :: cs) = scanAux (cs.length + 1) cs
  rw [scanAux_succ_cons, if_neg hc]

theorem findTokenNames_cons_lb (cs : List Char) (h : cs.head? ≠ some lb) :
    findTokenNames (lb :: cs) = findTokenNames cs := by
  cases cs with
  | nil => rfl
  | cons c2 rest =>
    have hc2 : c2 ≠ lb := by simpa using h
    show scanAux (rest.length + 1 + 1 + 1) (lb :: c2 :: rest) = scanAux (rest.length + 1 + 1) (c2 :: rest)
    rw [scanAux_succ_lb, if_neg hc2]

theorem scan_split_rb : ∀ (k : List Char), (∀ c ∈ k, c ≠ rb) → ∀ M : List Char,
    (k ++ rb :: M).takeWhile (fun d => d ≠ rb) = k ∧
    (k ++ rb :: M).dropWhile (fun d => d ≠ rb) = rb :: M
  | [], _, M => by
    constructor
    · show (rb :: M).takeWhile (fun d => d ≠ rb) = []
      rw [List.takeWhile_cons, if_neg (by simp)]
    · show (rb :: M).dropWhile (fun d => d ≠ rb) = rb :: M
      rw [List.dropWhile_cons, if_neg (by simp)]
  | c :: k2, hk, M => by
    have hc : c ≠ rb := hk c (by simp)
    have ih := scan_split_rb k2 (fun d hd => hk d (by simp [hd])) M
    constructor
    · show (c :: (k2 ++ rb :: M)).takeWhile (fun d => d ≠ rb) = c :: k2
      rw [List.takeWhile_cons, if_pos (by simp [hc]), ih.1]
    · show (c :: (k2 ++ rb :: M)).dropWhile (fun d => d ≠ rb) = rb :: M
      rw [List.dropWhile_cons, if_pos (by simp [hc]), ih.2]

/-- The scanner finds a full token at the head of the input and resumes
after it. -/
theorem findTokenNames_match (k M : List Char) (hk1 : k ≠ [])
    (hk2 : ∀ c ∈ k, c ≠ rb) :
    findTokenNames (lb :: lb :: (k ++ rb :: rb :: M)) = k :: findTokenNames M := by
  obtain ⟨htake, hdrop⟩ := scan_split_rb k hk2 (rb :: M)
  show scanAux ((k ++ rb :: rb :: M).length + 1 + 1 + 1) (lb :: lb :: (k ++ rb :: rb :: M)) =
    k :: findTokenNames M
  rw [scanAux_succ_lb, if_pos rfl, hdrop, htake]
  show (if rb = rb ∧ rb = rb ∧ k ≠ [] then
      k :: scanAux ((k ++ rb :: rb :: M).length + 1 + 1) M
    else scanAux ((k ++ rb :: rb :: M).length + 1 + 1) (lb :: (k ++ rb :: rb :: M))) =
    k :: findTokenNames M
  rw [if_pos ⟨rfl, rfl, hk1⟩,
    scanAux_congr ((k ++ rb :: rb :: M).length + 1 + 1) M (M.length + 1)
      (by simp; omega) (by simp)]
  rfl

theorem findTokenNames_chunk : ∀ (l : List Char), (∀ c ∈ l, c ≠ lb) → ∀ M : List Char,
    findTokenNames (l ++ M) = findTokenNames M
  | [], _, _ => rfl
  | c :: l2, hl, M => by
    show findTokenNames (c :: (l2 ++ M)) = findTokenNames M
    rw [findTokenNames_cons_ne c (l2 ++ M) (hl c (by simp)),
      findTokenNames_chunk l2 (fun d hd => hl d (by simp [hd])) M]

theorem pyDumpsObj_head (fs : JsonObj) (M : List Char) :
    (pyDumpsObj fs ++ rb :: M).head? ≠ some lb := by
  cases fs with
  | onil =>
    show (rb :: M).head? ≠ some lb
    simp [rb, lb, Char.ofNat]
  | ocons k v t =>
    show (('"' :: escJson k ++ '"' :: ':' :: ' ' :: pyDumps v ++ pyDumpsObjRest t) ++
      rb :: M).head? ≠ some lb
    simp [lb, Char.ofNat]

mutual
/-- The placeholder scanner on a serialized wellformed tree followed by any
suffix finds exactly the placeholder names of the tree, then scans the
suffix. -/
theorem scanWalk : ∀ (u : Json), wft u = true → ∀ M : List Char,
    findTokenNames (pyDumps u ++ M) = phList u ++ findTokenNames M
  | .jnull, _, M => by
    rw [show phList Json.jnull = [] from rfl, List.nil_append]
    exact findTokenNames_chunk "null".data (by decide) M
  | .jbool b, _, M => by
    rw [show phList (Json.jbool b) = [] from rfl, List.nil_append]
    cases b with
    | true => exact findTokenNames_chunk "true".data (by decide) M
    | false => exact findTokenNames_chunk "false".data (by decide) M
  | .jint n, _, M => by
    rw [show phList (Json.jint n) = [] from rfl, List.nil_append]
    exact findTokenNames_chunk (intChars n) (fun c hc => (intChars_safe n c hc).2.1) M
  | .jstr s, hwf, M => by
    have hwf' : (match phKey? s with
        | some k => keyOkB k
        | none => plainStrB s) = true := hwf
    cases hph : phKey? s with
    | some k =>
      rw [hph] at hwf'
      have hshape : s = phChars k := phKey?_eq_some s k hph
      subst hshape
      have hkparts := keyOkB_parts k hwf'
      have he : pyDumps (Json.jstr (phChars k)) ++ M =
          '"' :: lb :: lb :: (k ++ rb :: rb :: ('"' :: M)) := by
        show ('"' :: escJson (phChars k) ++ ['"']) ++ M = _
        rw [escJson_phChars k hwf']
        simp [phChars]
      rw [he, findTokenNames_cons_ne _ _ (by decide),
        findTokenNames_match k ('"' :: M) hkparts.1
          (fun c hc => (keyChar_parts c (hkparts.2 c hc)).2.2),
        findTokenNames_cons_ne _ _ (by decide)]
      show k :: findTokenNames M = phList (Json.jstr (phChars k)) ++ findTokenNames M
      rw [show phList (Json.jstr (phChars k)) = [k] from by
        show (match phKey? (phChars k) with
          | some k2 => [k2]
          | none => ([] : List (List Char))) = [k]
        rw [phKey?_phChars k hwf']]
      rfl
    | none =>
      rw [hph] at hwf'
      rw [show phList (Json.jstr s) = [] from by
        show (match phKey? s with
          | some k2 => [k2]
          | none => ([] : List (List Char))) = []
        rw [hph], List.nil_append]
      show findTokenNames (('"' :: escJson s ++ ['"']) ++ M) = findTokenNames M
      have hnolb : ∀ c ∈ ('"' :: escJson s ++ ['"']), c ≠ lb := by
        intro c hc
        rcases List.mem_cons.mp hc with h | hc2
        · subst h; decide
        · rcases List.mem_append.mp hc2 with h | h
          · exact escJson_no_lb s
              (fun d hd => ⟨(plainStrB_parts s hwf' d hd).1, (plainStrB_parts s hwf' d hd).2.1⟩)
              c h
          · simp at h; subst h; decide
      exact findTokenNames_chunk _ hnolb M
  | .jarr xs, hwf, M => by
    show findTokenNames (('[' :: pyDumpsArr xs ++ [']']) ++ M) = phListArr xs ++ findTokenNames M
    have he : ('[' :: pyDumpsArr xs ++ [']']) ++ M = '[' :: (pyDumpsArr xs ++ (']' :: M)) := by
      simp
    rw [he, findTokenNames_cons_ne _ _ (by decide), scanWalkArr xs hwf (']' :: M),
      findTokenNames_cons_ne _ _ (by decide)]
  | .jobj fs, hwf, M => by
    show findTokenNames ((lb :: pyDumpsObj fs ++ [rb]) ++ M) = phListObj fs ++ findTokenNames M
    have he : (lb :: pyDumpsObj fs ++ [rb]) ++ M = lb :: (pyDumpsObj fs ++ (rb :: M)) := by
      simp
    rw [he, findTokenNames_cons_lb _ (pyDumpsObj_head fs M), scanWalkObj fs hwf (rb :: M),
      findTokenNames_cons_ne _ _ (by decide)]
theorem scanWalkArr : ∀ (xs : JsonArr), wftArr xs = true → ∀ M : List Char,
    findTokenNames (pyDumpsArr xs ++ M) = phListArr xs ++ findTokenNames M
  | .anil, _, M => rfl
  | .acons h t, hwf, M => by
    obtain ⟨hwh, hwt⟩ : wft h = true ∧ wftArr t = true := by simpa [wftArr] using hwf
    show findTokenNames ((pyDumps h ++ pyDumpsArrRest t) ++ M) =
      (phList h ++ phListArr t) ++ findTokenNames M
    rw [List.append_assoc, scanWalk h hwh _, scanWalkArrRest t hwt M, List.append_assoc]
theorem scanWalkArrRest : ∀ (xs : JsonArr), wftArr xs = true → ∀ M : List Char,
    findTokenNames (pyDumpsArrRest xs ++ M) = phListArr xs ++ findTokenNames M
  | .anil, _, M => rfl
  | .acons h t, hwf, M => by
    obtain ⟨hwh, hwt⟩ : wft h = true ∧ wftArr t = true := by simpa [wftArr] using hwf
    show findTokenNames ((',' :: ' ' :: pyDumps h ++ pyDumpsArrRest t) ++ M) =
      (phList h ++ phListArr t) ++ findTokenNames M
    have he : (',' :: ' ' :: pyDumps h ++ pyDumpsArrRest t) ++ M =
        ',' :: ' ' :: (pyDumps h ++ (pyDumpsArrRest t ++ M)) := by
      simp
    rw [he, findTokenNames_cons_ne _ _ (by decide), findTokenNames_cons_ne _ _ (by decide),
      scanWalk h hwh _, scanWalkArrRest t hwt M, List.append_assoc]
theorem scanWalkObj : ∀ (fs : JsonObj), wftObj fs = true → ∀ M : List Char,
    findTokenNames (pyDumpsObj fs ++ M) = phListObj fs ++ findTokenNames M
  | .onil, _, M => rfl
  | .ocons k v t, hwf, M => by
    obtain ⟨hkey, hwv, hwt⟩ : plainStrB k = true ∧ wft v = true ∧ wftObj t = true := by
      simpa [wftObj, and_assoc] using hwf
    show findTokenNames (('"' :: escJson k ++ '"' :: ':' :: ' ' :: pyDumps v ++
      pyDumpsObjRest t) ++ M) = (phList v ++ phListObj t) ++ findTokenNames M
    have he : ('"' :: escJson k ++ '"' :: ':' :: ' ' :: pyDumps v ++ pyDumpsObjRest t) ++ M =
        '"' :: (escJson k ++ ('"' :: ':' :: ' ' :: (pyDumps v ++ (pyDumpsObjRest t ++ M)))) := by
      simp
    rw [he, findTokenNames_cons_ne _ _ (by decide),
      findTokenNames_chunk (escJson k)
        (escJson_no_lb k (fun d hd => ⟨(plainStrB_parts k hkey d hd).1,
          (plainStrB_parts k hkey d hd).2.1⟩)) _,
      findTokenNames_cons_ne _ _ (by decide), findTokenNames_cons_ne _ _ (by decide),
      findTokenNames_cons_ne _ _ (by decide), scanWalk v hwv _, scanWalkObjRest t hwt M,
      List.append_assoc]
theorem scanWalkObjRest : ∀ (fs : JsonObj), wftObj fs = true → ∀ M : List Char,
    findTokenNames (pyDumpsObjRest fs ++ M) = phListObj fs ++ findTokenNames M
  | .onil, _, M => rfl
  | .ocons k v t, hwf, M => by
    obtain ⟨hkey, hwv, hwt⟩ : plainStrB k = true ∧ wft v = true ∧ wftObj t = true := by
      simpa [wftObj, and_assoc] using hwf
    show findTokenNames ((',' :: ' ' :: '"' :: escJson k ++ '"' :: ':' :: ' ' :: pyDumps v ++
      pyDumpsObjRest t) ++ M) = (phList v ++ phListObj t) ++ findTokenNames M
    have he : (',' :: ' ' :: '"' :: escJson k ++ '"' :: ':' :: ' ' :: pyDumps v ++
        pyDumpsObjRest t) ++ M =
        ',' :: ' ' :: '"' :: (escJson k ++
          ('"' :: ':' :: ' ' :: (pyDumps v ++ (pyDumpsObjRest t ++ M)))) := by
      simp
    rw [he, findTokenNames_cons_ne _ _ (by decide), findTokenNames_cons_ne _ _ (by decide),
      findTokenNames_cons_ne _ _ (by decide),
      findTokenNames_chunk (escJson k)
        (escJson_no_lb k (fun d hd => ⟨(plainStrB_parts k hkey d hd).1,
          (plainStrB_parts k hkey d hd).2.1⟩)) _,
      findTokenNames_cons_ne _ _ (by decide), findTokenNames_cons_ne _ _ (by decide),
      findTokenNames_cons_ne _ _ (by decide), scanWalk v hwv _, scanWalkObjRest t hwt M,
      List.append_assoc]
end

/-- On a serialized wellformed tree the scanner reports precisely the
tree's placeholder names. -/
theorem findTokenNames_dumps (u : Json) (hwf : wft u = true) :
    findTokenNames (pyDumps u) = phList u := by
  have h := scanWalk u hwf []
  rw [List.append_nil] at h
  rw [h]
  show phList u ++ ([] : List (List Char)) = phList u
  exact List.append_nil _

/-! ### Parsing back: digit and whitespace facts -/

theorem char_ne_of_toNat (c d : Char) (h : c.toNat ≠ d.toNat) : c ≠ d :=
  fun he => h (congrArg Char.toNat he)

theorem isDigit_of_range (c : Char) (h : 48 ≤ c.toNat ∧ c.toNat ≤ 57) :
    c.isDigit = true := by
  simp only [Char.toNat, UInt32.toNat] at h
  simp [Char.isDigit, Char.le_def, UInt32.le_def, BitVec.le_def, BitVec.lt_def]
  omega

theorem digitChar_toNat (d : Nat) (hd : d < 10) : (digitChar d).toNat = 48 + d := by
  interval_cases d <;> decide

theorem digitsVal_append1 (l : List Char) (c : Char) :
    digitsVal (l ++ [c]) = digitsVal l * 10 + (c.toNat - 48) := by
  simp [digitsVal, List.foldl_append]

theorem natCharsAux_val : ∀ (fuel n : Nat), n ≤ fuel →
    digitsVal (natCharsAux fuel n) = n
  | 0, n, h => by
    have : n = 0 := Nat.le_zero.mp h
    subst this
    rfl
  | fuel+1, n, h => by
    by_cases hn : n = 0
    · subst hn
      rfl
    · show digitsVal (if n = 0 then [] else natCharsAux fuel (n / 10) ++ [digitChar (n % 10)]) = n
      rw [if_neg hn, digitsVal_append1,
        natCharsAux_val fuel (n / 10) (by
          have hlt : n / 10 < n := Nat.div_lt_self (Nat.pos_of_ne_zero hn) (by decide : (1:Nat) < 10)
          omega),
        digitChar_toNat (n % 10) (Nat.mod_lt n (by decide))]
      omega

theorem digitsVal_natChars (n : Nat) : digitsVal (natChars n) = n := by
  unfold natChars
  by_cases hn : n = 0
  · subst hn
    rfl
  · rw [if_neg hn]
    exact natCharsAux_val n n (Nat.le_refl n)

theorem natCharsAux_ne_nil (fuel n : Nat) (h1 : n ≠ 0) (h2 : n ≤ fuel) :
    natCharsAux fuel n ≠ [] := by
  cases fuel with
  | zero => omega
  | succ f =>
    show (if n = 0 then [] else natCharsAux f (n / 10) ++ [digitChar (n % 10)]) ≠ []
    rw [if_neg h1]
    simp

theorem natChars_ne_nil (n : Nat) : natChars n ≠ [] := by
  unfold natChars
  by_cases hn : n = 0
  · rw [if_pos hn]
    simp
  · rw [if_neg hn]
    exact natCharsAux_ne_nil n n hn (Nat.le_refl n)

theorem natChars_digits (n : Nat) : ∀ c ∈ natChars n, c.isDigit = true :=
  fun c hc => isDigit_of_range c (natChars_chars n c hc)

theorem skipWs_cons_no (c : Char) (l : List Char) (h : isJsonWs c = false) :
    skipWs (c :: l) = c :: l := by
  unfold skipWs
  rw [List.dropWhile_cons, if_neg (by simp [h])]

theorem skipWs_cons_sp (l : List Char) : skipWs (' ' :: l) = skipWs l := by
  unfold skipWs
  rw [List.dropWhile_cons, if_pos (by decide)]

theorem isJsonWs_of_range (c : Char) (h : 44 ≤ c.toNat) : isJsonWs c = false := by
  have h1 : c ≠ ' ' := char_ne_of_toNat c ' ' (by intro he; rw [show (' ').toNat = 32 from rfl] at he; omega)
  have h2 : c ≠ '\t' := char_ne_of_toNat c '\t' (by intro he; rw [show ('\t').toNat = 9 from rfl] at he; omega)
  have h3 : c ≠ '\n' := char_ne_of_toNat c '\n' (by intro he; rw [show ('\n').toNat = 10 from rfl] at he; omega)
  have h4 : c ≠ '\r' := char_ne_of_toNat c '\r' (by intro he; rw [show ('\r').toNat = 13 from rfl] at he; omega)
  simp [isJsonWs, h1, h2, h3, h4]

theorem takeWhile_digits_append : ∀ (l M : List Char), (∀ c ∈ l, c.isDigit = true) →
    restOkB M = true →
    (l ++ M).takeWhile Char.isDigit = l ∧ (l ++ M).dropWhile Char.isDigit = M
  | [], M, _, hM => by
    cases M with
    | nil => exact ⟨rfl, rfl⟩
    | cons c M2 =>
      have hc : (c = ',' ∨ c = ']') ∨ c = rb := by simpa [restOkB] using hM
      have hd : c.isDigit = false := by
        rcases hc with (h | h) | h <;> subst h <;> decide
      constructor
      · show (c :: M2).takeWhile Char.isDigit = []
        rw [List.takeWhile_cons, if_neg (by simp [hd])]
      · show (c :: M2).dropWhile Char.isDigit = c :: M2
        rw [List.dropWhile_cons, if_neg (by simp [hd])]
  | c :: l2, M, hl, hM => by
    have hc : c.isDigit = true := hl c (by simp)
    have ih := takeWhile_digits_append l2 M (fun d hd => hl d (by simp [hd])) hM
    constructor
    · show (c :: (l2 ++ M)).takeWhile Char.isDigit = c :: l2
      rw [List.takeWhile_cons, if_pos (by simp [hc]), ih.1]
    · show (c :: (l2 ++ M)).dropWhile Char.isDigit = M
      rw [List.dropWhile_cons, if_pos (by simp [hc]), ih.2]

theorem parseIntTok_cons (c : Char) (cs : List Char) :
    parseIntTok (c :: cs) =
      if c = '-' then
        match cs.takeWhile Char.isDigit with
        | [] => none
        | ds => some (-(digitsVal ds : Int), cs.dropWhile Char.isDigit)
      else
        match (c :: cs).takeWhile Char.isDigit with
        | [] => none
        | ds => some ((digitsVal ds : Int), (c :: cs).dropWhile Char.isDigit) := rfl

theorem parseIntTok_intChars (n : Int) (M : List Char) (hM : restOkB M = true) :
    parseIntTok (intChars n ++ M) = some (n, M) := by
  cases n with
  | ofNat m =>
    obtain ⟨c, l, hcl⟩ : ∃ c l, natChars m = c :: l := by
      cases h : natChars m with
      | nil => exact absurd h (natChars_ne_nil m)
      | cons c l => exact ⟨c, l, rfl⟩
    have hrange : 48 ≤ c.toNat ∧ c.toNat ≤ 57 :=
      natChars_chars m c (by rw [hcl]; simp)
    obtain ⟨htake, hdrop⟩ := takeWhile_digits_append (natChars m) M (natChars_digits m) hM
    have hneg : c ≠ '-' :=
      char_ne_of_toNat c '-' (by intro he; rw [show ('-').toNat = 45 from rfl] at he; omega)
    show parseIntTok (natChars m ++ M) = some (Int.ofNat m, M)
    rw [hcl] at htake hdrop ⊢
    show parseIntTok (c :: (l ++ M)) = some (Int.ofNat m, M)
    rw [parseIntTok_cons, if_neg hneg]
    show (match (c :: (l ++ M)).takeWhile Char.isDigit with
      | [] => none
      | ds => some ((digitsVal ds : Int), (c :: (l ++ M)).dropWhile Char.isDigit)) =
      some (Int.ofNat m, M)
    rw [show c :: (l ++ M) = (c :: l) ++ M from rfl, htake, hdrop]
    show some ((digitsVal (c :: l) : Int), M) = some (Int.ofNat m, M)
    rw [← hcl, digitsVal_natChars]
    rfl
  | negSucc m =>
    obtain ⟨c, l, hcl⟩ : ∃ c l, natChars (m + 1) = c :: l := by
      cases h : natChars (m + 1) with
      | nil => exact absurd h (natChars_ne_nil (m + 1))
      | cons c l => exact ⟨c, l, rfl⟩
    obtain ⟨htake, hdrop⟩ :=
      takeWhile_digits_append (natChars (m + 1)) M (natChars_digits (m + 1)) hM
    show parseIntTok ('-' :: (natChars (m + 1) ++ M)) = some (Int.negSucc m, M)
    rw [parseIntTok_cons, if_pos rfl]
    show (match (natChars (m + 1) ++ M).takeWhile Char.isDigit with
      | [] => none
      | ds => some (-(digitsVal ds : Int), (natChars (m + 1) ++ M).dropWhile Char.isDigit)) =
      some (Int.negSucc m, M)
    rw [htake, hdrop, hcl]
    show some (-(digitsVal (c :: l) : Int), M) = some (Int.negSucc m, M)
    rw [← hcl, digitsVal_natChars]
    rw [show -((m + 1 : Nat) : Int) = Int.negSucc m from by
      rw [Int.negSucc_eq]; push_cast; ring]

theorem parseStrBody_cons (c : Char) (cs : List Char) :
    parseStrBody (c :: cs) =
      if c = '"' then some ([], cs)
      else if c = '\\' then
        match cs with
        | [] => none
        | e :: cs2 =>
          match unescChar e with
          | some d =>
            match parseStrBody cs2 with
            | some (body, rest) => some (d :: body, rest)
            | none => none
          | none => none
      else if c.toNat < 32 then none
      else
        match parseStrBody cs with
        | some (body, rest) => some (c :: body, rest)
        | none => none := by
  rw [parseStrBody.eq_def]

/-- Parsing back an `ensure_ascii`-escaped good string body recovers the
string and stops right after the closing quote. -/
theorem parseStrBody_escJson : ∀ (s : List Char), (∀ c ∈ s, goodChar c = true) →
    ∀ M : List Char, parseStrBody (escJson s ++ '"' :: M) = some (s, M)
  | [], _, M => by
    show parseStrBody ('"' :: M) = some ([], M)
    rw [parseStrBody_cons, if_pos rfl]
  | c :: cs, h, M => by
    have hg : goodChar c = true := h c (by simp)
    have ih := parseStrBody_escJson cs (fun d hd => h d (by simp [hd])) M
    simp only [goodChar, Bool.or_eq_true, decide_eq_true_eq] at hg
    show parseStrBody ((escChar c ++ escJson cs) ++ '"' :: M) = some (c :: cs, M)
    rcases hg with ((((hp | he) | he) | he) | he) | he
    · have h32 : 32 ≤ c.toNat ∧ c.toNat ≤ 126 ∧ c ≠ '"' ∧ c ≠ '\\' := by
        simpa [plainChar, and_assoc] using hp
      rw [escChar_plain c hp]
      show parseStrBody (c :: (escJson cs ++ '"' :: M)) = some (c :: cs, M)
      rw [parseStrBody_cons, if_neg h32.2.2.1, if_neg h32.2.2.2,
        if_neg (by omega : ¬c.toNat < 32), ih]
    · subst he
      show parseStrBody ('\\' :: '"' :: (escJson cs ++ '"' :: M)) = some ('"' :: cs, M)
      rw [parseStrBody_cons, if_neg (by decide), if_pos rfl]
      show (match unescChar '"' with
        | some d =>
          match parseStrBody (escJson cs ++ '"' :: M) with
          | some (body, rest) => some (d :: body, rest)
          | none => none
        | none => none) = some ('"' :: cs, M)
      rw [show unescChar '"' = some '"' from rfl, ih]
    · subst he
      show parseStrBody ('\\' :: '\\' :: (escJson cs ++ '"' :: M)) = some ('\\' :: cs, M)
      rw [parseStrBody_cons, if_neg (by decide), if_pos rfl]
      show (match unescChar '\\' with
        | some d =>
          match parseStrBody (escJson cs ++ '"' :: M) with
          | some (body, rest) => some (d :: body, rest)
          | none => none
        | none => none) = some ('\\' :: cs, M)
      rw [show unescChar '\\' = some '\\' from rfl, ih]
    · subst he
      show parseStrBody ('\\' :: 'n' :: (escJson cs ++ '"' :: M)) = some ('\n' :: cs, M)
      rw [parseStrBody_cons, if_neg (by decide), if_pos rfl]
      show (match unescChar 'n' with
        | some d =>
          match parseStrBody (escJson cs ++ '"' :: M) with
          | some (body, rest) => some (d :: body, rest)
          | none => none
        | none => none) = some ('\n' :: cs, M)
      rw [show unescChar 'n' = some '\n' from rfl, ih]
    · subst he
      show parseStrBody ('\\' :: 'r' :: (escJson cs ++ '"' :: M)) = some ('\r' :: cs, M)
      rw [parseStrBody_cons, if_neg (by decide), if_pos rfl]
      show (match unescChar 'r' with
        | some d =>
          match parseStrBody (escJson cs ++ '"' :: M) with
          | some (body, rest) => some (d :: body, rest)
          | none => none
        | none => none) = some ('\r' :: cs, M)
      rw [show unescChar 'r' = some '\r' from rfl, ih]
    · subst he
      show parseStrBody ('\\' :: 't' :: (escJson cs ++ '"' :: M)) = some ('\t' :: cs, M)
      rw [parseStrBody_cons, if_neg (by decide), if_pos rfl]
      show (match unescChar 't' with
        | some d =>
          match parseStrBody (escJson cs ++ '"' :: M) with
          | some (body, rest) => some (d :: body, rest)
          | none => none
        | none => none) = some ('\t' :: cs, M)
      rw [show unescChar 't' = some '\t' from rfl, ih]

theorem parseVal_succ (fuel : Nat) (s : List Char) :
    parseVal (fuel+1) s =
      match skipWs s with
      | [] => none
      | c :: cs =>
        if c = lb then
          match skipWs cs with
          | [] => none
          | d :: ds =>
            if d = rb then some (.jobj .onil, ds)
            else
              match parseObjItems fuel (d :: ds) with
              | some (fs, rest) => some (.jobj fs, rest)
              | none => none
        else if c = '[' then
          match skipWs cs with
          | [] => none
          | d :: ds =>
            if d = ']' then some (.jarr .anil, ds)
            else
              match parseArrItems fuel (d :: ds) with
              | some (xs, rest) => some (.jarr xs, rest)
              | none => none
        else if c = '"' then
          match parseStrBody cs with
          | some (body, rest) => some (.jstr body, rest)
          | none => none
        else if c = 't' then
          match cs with
          | 'r' :: 'u' :: 'e' :: rest => some (.jbool true, rest)
          | _ => none
        else if c = 'f' then
          match cs with
          | 'a' :: 'l' :: 's' :: 'e' :: rest => some (.jbool false, rest)
          | _ => none
        else if c = 'n' then
          match cs with
          | 'u' :: 'l' :: 'l' :: rest => some (.jnull, rest)
          | _ => none
        else
          match parseIntTok (c :: cs) with
          | some (n, rest) => some (.jint n, rest)
          | none => none := by
  rw [parseVal.eq_def]

theorem parseArrItems_succ (fuel : Nat) (s : List Char) :
    parseArrItems (fuel+1) s =
      match parseVal fuel s with
      | some (v, rest) =>
        match skipWs rest with
        | [] => none
        | e :: es =>
          if e = ',' then
            match parseArrItems fuel (skipWs es) with
            | some (t, rest2) => some (.acons v t, rest2)
            | none => none
          else if e = ']' then some (.acons v .anil, es)
          else none
      | none => none := by
  rw [parseArrItems.eq_def]

theorem parseObjItems_succ (fuel : Nat) (s : List Char) :
    parseObjItems (fuel+1) s =
      match s with
      | [] => none
      | c :: cs =>
        if c = '"' then
          match parseStrBody cs with
          | some (key, rest) =>
            match skipWs rest with
            | [] => none
            | d :: ds =>
              if d = ':' then
                match parseVal fuel ds with
                | some (v, rest2) =>
                  match skipWs rest2 with
                  | [] => none
                  | e :: es =>
                    if e = ',' then
                      match parseObjItems fuel (skipWs es) with
                      | some (t, rest3) => some (.ocons key v t, rest3)
                      | none => none
                    else if e = rb then some (.ocons key v .onil, es)
                    else none
                | none => none
              else none
          | none => none
        else none := by
  rw [parseObjItems.eq_def]

mutual
theorem jsize_dumps : ∀ v : Json, jsize v ≤ (pyDumps v).length
  | .jnull => by decide
  | .jbool b => by cases b <;> decide
  | .jint n => by
    show 1 ≤ (intChars n).length
    cases n with
    | ofNat m =>
      have := natChars_ne_nil m
      show 1 ≤ (natChars m).length
      cases h : natChars m with
      | nil => exact absurd h this
      | cons c l => simp
    | negSucc m => simp [intChars]
  | .jstr s => by
    show 1 ≤ ('"' :: escJson s ++ ['"']).length
    simp
  | .jarr xs => by
    have h := asize_dumpsArr xs
    show 1 + asize xs ≤ ('[' :: pyDumpsArr xs ++ [']']).length
    simp only [List.length_cons, List.length_append, List.length_singleton]
    omega
  | .jobj fs => by
    have h := osize_dumpsObj fs
    show 1 + osize fs ≤ (lb :: pyDumpsObj fs ++ [rb]).length
    simp only [List.length_cons, List.length_append, List.length_singleton]
    omega
theorem asize_dumpsArr : ∀ xs : JsonArr, asize xs ≤ (pyDumpsArr xs).length + 1
  | .anil => by decide
  | .acons h t => by
    have h1 := jsize_dumps h
    have h2 := asize_dumpsArrRest t
    show 1 + jsize h + asize t ≤ (pyDumps h ++ pyDumpsArrRest t).length + 1
    simp only [List.length_append]
    omega
theorem asize_dumpsArrRest : ∀ xs : JsonArr, asize xs ≤ (pyDumpsArrRest xs).length
  | .anil => by decide
  | .acons h t => by
    have h1 := jsize_dumps h
    have h2 := asize_dumpsArrRest t
    show 1 + jsize h + asize t ≤ (',' :: ' ' :: pyDumps h ++ pyDumpsArrRest t).length
    simp only [List.length_cons, List.length_append]
    omega
theorem osize_dumpsObj : ∀ fs : JsonObj, osize fs ≤ (pyDumpsObj fs).length + 1
  | .onil => by decide
  | .ocons k v t => by
    have h1 := jsize_dumps v
    have h2 := osize_dumpsObjRest t
    show 1 + jsize v + osize t ≤
      ('"' :: escJson k ++ '"' :: ':' :: ' ' :: pyDumps v ++ pyDumpsObjRest t).length + 1
    simp only [List.length_cons, List.length_append]
    omega
theorem osize_dumpsObjRest : ∀ fs : JsonObj, osize fs ≤ (pyDumpsObjRest fs).length
  | .onil => by decide
  | .ocons k v t => by
    have h1 := jsize_dumps v
    have h2 := osize_dumpsObjRest t
    show 1 + jsize v + osize t ≤
      (',' :: ' ' :: '"' :: escJson k ++ '"' :: ':' :: ' ' :: pyDumps v ++
        pyDumpsObjRest t).length
    simp only [List.length_cons, List.length_append]
    omega
end

theorem restOk_arrRest (t : JsonArr) (M : List Char) :
    restOkB (pyDumpsArrRest t ++ ']' :: M) = true := by
  cases t <;> rfl

theorem restOk_objRest (t : JsonObj) (M : List Char) :
    restOkB (pyDumpsObjRest t ++ rb :: M) = true := by
  cases t <;> rfl

theorem parseVal_sp (fuel : Nat) (x : List Char) :
    parseVal fuel (' ' :: x) = parseVal fuel x := by
  cases fuel with
  | zero => rfl
  | succ f => rw [parseVal_succ, parseVal_succ, skipWs_cons_sp]

/-- The first character of a serialized value: never whitespace and never a
closing delimiter. -/
theorem pyDumps_head (v : Json) :
    ∃ c l, pyDumps v = c :: l ∧ isJsonWs c = false ∧ c ≠ ']' ∧ c ≠ rb := by
  cases v with
  | jnull => exact ⟨'n', _, rfl, by decide, by decide, by decide⟩
  | jbool b =>
    cases b
    · exact ⟨'f', _, rfl, rfl, by decide, by decide⟩
    · exact ⟨'t', _, rfl, rfl, by decide, by decide⟩
  | jstr s => exact ⟨'"', _, rfl, by decide, by decide, by decide⟩
  | jarr xs => exact ⟨'[', _, rfl, by decide, by decide, by decide⟩
  | jobj fs => exact ⟨lb, _, rfl, by decide, by decide, by decide⟩
  | jint n =>
    cases n with
    | negSucc m => exact ⟨'-', _, rfl, by decide, by decide, by decide⟩
    | ofNat m =>
      obtain ⟨c, l, hcl⟩ : ∃ c l, natChars m = c :: l := by
        cases h : natChars m with
        | nil => exact absurd h (natChars_ne_nil m)
        | cons c l => exact ⟨c, l, rfl⟩
      have hrange : 48 ≤ c.toNat ∧ c.toNat ≤ 57 :=
        natChars_chars m c (by rw [hcl]; simp)
      refine ⟨c, l, hcl, isJsonWs_of_range c (by omega), ?_, ?_⟩
      · exact char_ne_of_toNat c ']' (by rw [show (']').toNat = 93 from rfl]; omega)
      · exact char_ne_of_toNat c rb (by rw [show rb.toNat = 125 from rfl]; omega)

mutual
/-- Parsing back a serialized good tree recovers the tree and leaves any
delimiter-headed suffix untouched. -/
theorem parseVal_dumps : ∀ (v : Json), wfp v = true → ∀ (fuel : Nat), jsize v ≤ fuel →
    ∀ (rest : List Char), restOkB rest = true →
    parseVal fuel (pyDumps v ++ rest) = some (v, rest)
  | .jnull, _, fuel, hfuel, rest, _ => by
    cases fuel with
    | zero => simp [jsize] at hfuel
    | succ f =>
      show parseVal (f+1) ('n' :: 'u' :: 'l' :: 'l' :: rest) = some (.jnull, rest)
      rw [parseVal_succ, skipWs_cons_no 'n' _ (by decide)]
      dsimp only
      rw [if_neg (by decide), if_neg (by decide), if_neg (by decide), if_neg (by decide),
        if_neg (by decide), if_pos rfl]
      rfl
  | .jbool true, _, fuel, hfuel, rest, _ => by
    cases fuel with
    | zero => simp [jsize] at hfuel
    | succ f =>
      show parseVal (f+1) ('t' :: 'r' :: 'u' :: 'e' :: rest) = some (.jbool true, rest)
      rw [parseVal_succ, skipWs_cons_no 't' _ (by decide)]
      dsimp only
      rw [if_neg (by decide), if_neg (by decide), if_neg (by decide), if_pos rfl]
      rfl
  | .jbool false, _, fuel, hfuel, rest, _ => by
    cases fuel with
    | zero => simp [jsize] at hfuel
    | succ f =>
      show parseVal (f+1) ('f' :: 'a' :: 'l' :: 's' :: 'e' :: rest) = some (.jbool false, rest)
      rw [parseVal_succ, skipWs_cons_no 'f' _ (by decide)]
      dsimp only
      rw [if_neg (by decide), if_neg (by decide), if_neg (by decide), if_neg (by decide),
        if_pos rfl]
      rfl
  | .jint n, _, fuel, hfuel, rest, hrest => by
    cases fuel with
    | zero => simp [jsize] at hfuel
    | succ f =>
      cases n with
      | ofNat m =>
        obtain ⟨c, l, hcl⟩ : ∃ c l, natChars m = c :: l := by
          cases h : natChars m with
          | nil => exact absurd h (natChars_ne_nil m)
          | cons c l => exact ⟨c, l, rfl⟩
        have hrange : 48 ≤ c.toNat ∧ c.toNat ≤ 57 :=
          natChars_chars m c (by rw [hcl]; simp)
        have h48 := hrange.1
        have h57 := hrange.2
        show parseVal (f+1) (natChars m ++ rest) = some (.jint (Int.ofNat m), rest)
        rw [hcl]
        show parseVal (f+1) (c :: (l ++ rest)) = some (.jint (Int.ofNat m), rest)
        rw [parseVal_succ, skipWs_cons_no c _ (isJsonWs_of_range c (by omega))]
        dsimp only
        rw [if_neg (char_ne_of_toNat c lb (by rw [show lb.toNat = 123 from rfl]; omega)),
          if_neg (char_ne_of_toNat c '[' (by rw [show ('[').toNat = 91 from rfl]; omega)),
          if_neg (char_ne_of_toNat c '"' (by rw [show ('"').toNat = 34 from rfl]; omega)),
          if_neg (char_ne_of_toNat c 't' (by rw [show ('t').toNat = 116 from rfl]; omega)),
          if_neg (char_ne_of_toNat c 'f' (by rw [show ('f').toNat = 102 from rfl]; omega)),
          if_neg (char_ne_of_toNat c 'n' (by rw [show ('n').toNat = 110 from rfl]; omega))]
        rw [show c :: (l ++ rest) = (c :: l) ++ rest from rfl, ← hcl,
          show (natChars m : List Char) = intChars (Int.ofNat m) from rfl,
          parseIntTok_intChars (Int.ofNat m) rest hrest]
      | negSucc m =>
        show parseVal (f+1) (('-' :: natChars (m+1)) ++ rest) = some (.jint (Int.negSucc m), rest)
        rw [show ('-' :: natChars (m+1)) ++ rest = '-' :: (natChars (m+1) ++ rest) from rfl,
          parseVal_succ, skipWs_cons_no '-' _ (by decide)]
        dsimp only
        rw [if_neg (by decide), if_neg (by decide), if_neg (by decide), if_neg (by decide),
          if_neg (by decide), if_neg (by decide),
          show '-' :: (natChars (m+1) ++ rest) = intChars (Int.negSucc m) ++ rest from rfl,
          parseIntTok_intChars (Int.negSucc m) rest hrest]
  | .jstr s, hwf, fuel, hfuel, rest, _ => by
    cases fuel with
    | zero => simp [jsize] at hfuel
    | succ f =>
      have hgood : ∀ c ∈ s, goodChar c = true := by
        simpa [wfp, List.all_eq_true] using hwf
      have he : pyDumps (Json.jstr s) ++ rest = '"' :: (escJson s ++ '"' :: rest) := by
        show ('"' :: escJson s ++ ['"']) ++ rest = _
        simp
      rw [he, parseVal_succ, skipWs_cons_no '"' _ (by decide)]
      dsimp only
      rw [if_neg (by decide), if_neg (by decide), if_pos rfl,
        parseStrBody_escJson s hgood rest]
  | .jarr .anil, _, fuel, hfuel, rest, _ => by
    cases fuel with
    | zero => simp [jsize] at hfuel
    | succ f =>
      show parseVal (f+1) ('[' :: ']' :: rest) = some (.jarr .anil, rest)
      rw [parseVal_succ, skipWs_cons_no '[' _ (by decide)]
      dsimp only
      rw [if_neg (by decide), if_pos rfl, skipWs_cons_no ']' _ (by decide)]
      dsimp only
      rw [if_pos rfl]
  | .jarr (.acons x t), hwf, fuel, hfuel, rest, _ => by
    cases fuel with
    | zero => simp [jsize, asize] at hfuel
    | succ f =>
      have hwarr : wfpArr (.acons x t) = true := by simpa [wfp] using hwf
      simp only [jsize, asize] at hfuel
      obtain ⟨c, l, hcl, hws, hbr, _⟩ := pyDumps_head x
      have he : pyDumps (Json.jarr (.acons x t)) ++ rest =
          '[' :: (pyDumpsArr (.acons x t) ++ (']' :: rest)) := by
        show ('[' :: pyDumpsArr (.acons x t) ++ [']']) ++ rest = _
        simp
      have hcs : pyDumpsArr (.acons x t) ++ (']' :: rest) =
          c :: (l ++ (pyDumpsArrRest t ++ ']' :: rest)) := by
        show (pyDumps x ++ pyDumpsArrRest t) ++ (']' :: rest) = _
        rw [hcl]
        simp
      rw [he, parseVal_succ, skipWs_cons_no '[' _ (by decide)]
      dsimp only
      rw [if_neg (by decide), if_pos rfl, hcs, skipWs_cons_no c _ hws]
      dsimp only
      rw [if_neg hbr, ← hcs,
        parseArrItems_dumps (.acons x t) (by simp) hwarr f (by simp [asize]; omega) rest]
  | .jobj .onil, _, fuel, hfuel, rest, _ => by
    cases fuel with
    | zero => simp [jsize] at hfuel
    | succ f =>
      show parseVal (f+1) (lb :: rb :: rest) = some (.jobj .onil, rest)
      rw [parseVal_succ, skipWs_cons_no lb _ (by decide)]
      dsimp only
      rw [if_pos rfl, skipWs_cons_no rb _ (by decide)]
      dsimp only
      rw [if_pos rfl]
  | .jobj (.ocons key v t), hwf, fuel, hfuel, rest, _ => by
    cases fuel with
    | zero => simp [jsize, osize] at hfuel
    | succ f =>
      simp only [jsize, osize] at hfuel
      have he : pyDumps (Json.jobj (.ocons key v t)) ++ rest =
          lb :: (pyDumpsObj (.ocons key v t) ++ (rb :: rest)) := by
        show (lb :: pyDumpsObj (.ocons key v t) ++ [rb]) ++ rest = _
        simp
      have hcs : pyDumpsObj (.ocons key v t) ++ (rb :: rest) =
          '"' :: ((escJson key ++ '"' :: ':' :: ' ' :: pyDumps v ++ pyDumpsObjRest t) ++
            rb :: rest) := by
        show ('"' :: escJson key ++ '"' :: ':' :: ' ' :: pyDumps v ++ pyDumpsObjRest t) ++
          (rb :: rest) = _
        simp
      rw [he, parseVal_succ, skipWs_cons_no lb _ (by decide)]
      dsimp only
      rw [if_pos rfl, hcs, skipWs_cons_no '"' _ (by decide)]
      dsimp only
      rw [if_neg (by decide), ← hcs,
        parseObjItems_dumps (.ocons key v t) (by simp) (by simpa [wfp] using hwf) f
          (by simp [osize]; omega) rest]
theorem parseArrItems_dumps : ∀ (xs : JsonArr), xs ≠ .anil → wfpArr xs = true →
    ∀ (fuel : Nat), asize xs ≤ fuel → ∀ (M : List Char),
    parseArrItems fuel (pyDumpsArr xs ++ ']' :: M) = some (xs, M)
  | .anil, hne, _, _, _, _ => absurd rfl hne
  | .acons x t, _, hwf, fuel, hfuel, M => by
    obtain ⟨hwx, hwt⟩ : wfp x = true ∧ wfpArr t = true := by simpa [wfpArr] using hwf
    cases fuel with
    | zero => simp [asize] at hfuel
    | succ f =>
      simp only [asize] at hfuel
      have he : pyDumpsArr (.acons x t) ++ ']' :: M =
          pyDumps x ++ (pyDumpsArrRest t ++ ']' :: M) := by
        show (pyDumps x ++ pyDumpsArrRest t) ++ ']' :: M = _
        simp
      rw [he, parseArrItems_succ,
        parseVal_dumps x hwx f (by omega) (pyDumpsArrRest t ++ ']' :: M) (restOk_arrRest t M)]
      dsimp only
      cases t with
      | anil =>
        show (match skipWs (']' :: M) with
          | [] => none
          | e :: es =>
            if e = ',' then
              match parseArrItems f (skipWs es) with
              | some (t2, rest2) => some (JsonArr.acons x t2, rest2)
              | none => none
            else if e = ']' then some (JsonArr.acons x JsonArr.anil, es)
            else none) = some (JsonArr.acons x JsonArr.anil, M)
        rw [skipWs_cons_no ']' _ (by decide)]
        dsimp only
        rw [if_neg (by decide), if_pos rfl]
      | acons y t2 =>
        obtain ⟨c, l, hcl, hws, _, _⟩ := pyDumps_head y
        have hc2 : pyDumpsArrRest (.acons y t2) ++ ']' :: M =
            ',' :: ' ' :: (pyDumpsArr (.acons y t2) ++ ']' :: M) := by
          show (',' :: ' ' :: pyDumps y ++ pyDumpsArrRest t2) ++ ']' :: M = _
          simp [pyDumpsArr]
        have hc3 : pyDumpsArr (.acons y t2) ++ ']' :: M =
            c :: (l ++ (pyDumpsArrRest t2 ++ ']' :: M)) := by
          show (pyDumps y ++ pyDumpsArrRest t2) ++ ']' :: M = _
          rw [hcl]
          simp
        rw [hc2, skipWs_cons_no ',' _ (by decide)]
        dsimp only
        rw [if_pos rfl, skipWs_cons_sp, hc3, skipWs_cons_no c _ hws, ← hc3,
          parseArrItems_dumps (.acons y t2) (by simp) hwt f (by simp [asize] at hfuel ⊢; omega) M]
theorem parseObjItems_dumps : ∀ (fs : JsonObj), fs ≠ .onil → wfpObj fs = true →
    ∀ (fuel : Nat), osize fs ≤ fuel → ∀ (M : List Char),
    parseObjItems fuel (pyDumpsObj fs ++ rb :: M) = some (fs, M)
  | .onil, hne, _, _, _, _ => absurd rfl hne
  | .ocons key v t, _, hwf, fuel, hfuel, M => by
    obtain ⟨hkeyall, hwv, hwt⟩ : key.all goodChar = true ∧ wfp v = true ∧ wfpObj t = true := by
      simpa [wfpObj, and_assoc] using hwf
    have hkey : ∀ c ∈ key, goodChar c = true := by
      simpa [List.all_eq_true] using hkeyall
    cases fuel with
    | zero => simp [osize] at hfuel
    | succ f =>
      simp only [osize] at hfuel
      have he : pyDumpsObj (.ocons key v t) ++ rb :: M =
          '"' :: (escJson key ++ '"' :: (':' :: ' ' ::
            (pyDumps v ++ (pyDumpsObjRest t ++ rb :: M)))) := by
        show ('"' :: escJson key ++ '"' :: ':' :: ' ' :: pyDumps v ++ pyDumpsObjRest t) ++
          rb :: M = _
        simp
      rw [he, parseObjItems_succ]
      dsimp only
      rw [if_pos rfl, parseStrBody_escJson key hkey _]
      dsimp only
      rw [skipWs_cons_no ':' _ (by decide)]
      dsimp only
      rw [if_pos rfl, parseVal_sp,
        parseVal_dumps v hwv f (by omega) (pyDumpsObjRest t ++ rb :: M) (restOk_objRest t M)]
      dsimp only
      cases t with
      | onil =>
        show (match skipWs (rb :: M) with
          | [] => none
          | e :: es =>
            if e = ',' then
              match parseObjItems f (skipWs es) with
              | some (t2, rest3) => some (JsonObj.ocons key v t2, rest3)
              | none => none
            else if e = rb then some (JsonObj.ocons key v JsonObj.onil, es)
            else none) = some (JsonObj.ocons key v JsonObj.onil, M)
        rw [skipWs_cons_no rb _ (by decide)]
        dsimp only
        rw [if_neg (by decide), if_pos rfl]
      | ocons k2 v2 t2 =>
        have hc2 : pyDumpsObjRest (.ocons k2 v2 t2) ++ rb :: M =
            ',' :: ' ' :: (pyDumpsObj (.ocons k2 v2 t2) ++ rb :: M) := by
          show (',' :: ' ' :: '"' :: escJson k2 ++ '"' :: ':' :: ' ' :: pyDumps v2 ++
            pyDumpsObjRest t2) ++ rb :: M = _
          simp [pyDumpsObj]
        have hc3 : pyDumpsObj (.ocons k2 v2 t2) ++ rb :: M =
            '"' :: ((escJson k2 ++ '"' :: ':' :: ' ' :: pyDumps v2 ++ pyDumpsObjRest t2) ++
              rb :: M) := by
          show ('"' :: escJson k2 ++ '"' :: ':' :: ' ' :: pyDumps v2 ++ pyDumpsObjRest t2) ++
            rb :: M = _
          simp
        rw [hc2, skipWs_cons_no ',' _ (by decide)]
        dsimp only
        rw [if_pos rfl, skipWs_cons_sp, hc3, skipWs_cons_no '"' _ (by decide), ← hc3,
          parseObjItems_dumps (.ocons k2 v2 t2) (by simp) hwt f
            (by simp [osize] at hfuel ⊢; omega) M]
end

/-- `json.loads` inverts `json.dumps` on good trees. -/
theorem jsonLoads_dumps (v : Json) (h : wfp v = true) : jsonLoads (pyDumps v) = some v := by
  unfold jsonLoads
  have hp := parseVal_dumps v h ((pyDumps v).length + 1)
    (Nat.le_trans (jsize_dumps v) (Nat.le_succ _)) [] rfl
  rw [List.append_nil] at hp
  rw [hp]
  rfl

mutual
theorem wfp_of_wft : ∀ u : Json, wft u = true → wfp u = true
  | .jnull, _ => rfl
  | .jbool _, _ => rfl
  | .jint _, _ => rfl
  | .jstr s, hwf => by
    have hwf' : (match phKey? s with
        | some k => keyOkB k
        | none => plainStrB s) = true := hwf
    show s.all goodChar = true
    rw [List.all_eq_true]
    intro c hc
    cases hph : phKey? s with
    | some k =>
      rw [hph] at hwf'
      have hshape : s = phChars k := phKey?_eq_some s k hph
      have hp : plainChar c = true := phChars_plain k hwf' c (hshape ▸ hc)
      simp [goodChar, hp]
    | none =>
      rw [hph] at hwf'
      exact (plainStrB_parts s hwf' c hc).1
  | .jarr xs, hwf => by
    show wfpArr xs = true
    exact wfpArr_of_wft xs hwf
  | .jobj fs, hwf => by
    show wfpObj fs = true
    exact wfpObj_of_wft fs hwf
theorem wfpArr_of_wft : ∀ xs : JsonArr, wftArr xs = true → wfpArr xs = true
  | .anil, _ => rfl
  | .acons h t, hwf => by
    obtain ⟨hwh, hwt⟩ : wft h = true ∧ wftArr t = true := by simpa [wftArr] using hwf
    show (wfp h && wfpArr t) = true
    rw [wfp_of_wft h hwh, wfpArr_of_wft t hwt]
    rfl
theorem wfpObj_of_wft : ∀ fs : JsonObj, wftObj fs = true → wfpObj fs = true
  | .onil, _ => rfl
  | .ocons k v t, hwf => by
    obtain ⟨hkey, hwv, hwt⟩ : plainStrB k = true ∧ wft v = true ∧ wftObj t = true := by
      simpa [wftObj, and_assoc] using hwf
    show (k.all goodChar && wfp v && wfpObj t) = true
    have hk : k.all goodChar = true := by
      rw [List.all_eq_true]
      exact fun c hc => (plainStrB_parts k hkey c hc).1
    rw [hk, wfp_of_wft v hwv, wfpObj_of_wft t hwt]
    rfl
end

/-- When no Python-boolean pattern occurs, the fixup pass is the
identity. -/
theorem applyFixups_id (s : List Char)
    (h1 : hasSub (": True,".data) s = false)
    (h2 : hasSub (": False,".data) s = false)
    (h3 : hasSub (": True".data ++ [rb]) s = false)
    (h4 : hasSub (": False".data ++ [rb]) s = false) :
    applyFixups s = s := by
  show replaceAll (": False".data ++ [rb]) (": false".data ++ [rb])
    (replaceAll (": True".data ++ [rb]) (": true".data ++ [rb])
      (replaceAll (": False,".data) (": false,".data)
        (replaceAll (": True,".data) (": true,".data) s))) = s
  rw [replaceAll_no_sub _ _ (by decide) s h1, replaceAll_no_sub _ _ (by decide) s h2,
    replaceAll_no_sub _ _ (by decide) s h3, replaceAll_no_sub _ _ (by decide) s h4]

/-- When no parameter's quoted placeholder occurs in the serialized
template, the substitution loop is the identity. -/
theorem applyParams_id : ∀ (ps : List (List Char × PValue)) (s : List Char),
    (∀ kv ∈ ps, hasSub (quotedPh kv.1) s = false) → applyParams s ps = s
  | [], _, _ => rfl
  | (k, v) :: ps2, s, h => by
    have h1 : hasSub (quotedPh k) s = false := h (k, v) (by simp)
    show applyParams (replaceAll (quotedPh k) (renderValue v) s) ps2 = s
    rw [replaceAll_no_sub _ _ (quotedPh_ne_nil k) s h1]
    exact applyParams_id ps2 s (fun kv hm => h kv (by simp [hm]))

theorem mem_dedup : ∀ (l : List (List Char)) (a : List Char), a ∈ dedup l ↔ a ∈ l
  | [], a => Iff.rfl
  | x :: xs, a => by
    show a ∈ (if x ∈ dedup xs then dedup xs else x :: dedup xs) ↔ a ∈ x :: xs
    by_cases hx : x ∈ dedup xs
    · rw [if_pos hx, mem_dedup xs]
      constructor
      · exact fun h => List.mem_cons_of_mem x h
      · intro h
        rcases List.mem_cons.mp h with h | h
        · subst h
          exact (mem_dedup xs a).mp hx
        · exact h
    · rw [if_neg hx]
      constructor
      · intro h
        rcases List.mem_cons.mp h with h | h
        · subst h
          simp
        · exact List.mem_cons_of_mem x ((mem_dedup xs a).mp h)
      · intro h
        rcases List.mem_cons.mp h with h | h
        · subst h
          simp
        · exact List.mem_cons_of_mem x ((mem_dedup xs a).mpr h)

/-- Unfolding the scanner at a double left brace. -/
theorem findTokenNames_lb_lb (rest : List Char) :
    findTokenNames (lb :: lb :: rest) =
      match rest.dropWhile (fun d => d ≠ rb) with
      | d1 :: d2 :: rest2 =>
        if d1 = rb ∧ d2 = rb ∧ rest.takeWhile (fun d => d ≠ rb) ≠ [] then
          rest.takeWhile (fun d => d ≠ rb) :: findTokenNames rest2
        else findTokenNames (lb :: rest)
      | _ => findTokenNames (lb :: rest) := by
  show scanAux (rest.length + 1 + 1 + 1) (lb :: lb :: rest) = _
  rw [scanAux_succ_lb, if_pos rfl]
  cases hdrop : rest.dropWhile (fun d => d ≠ rb) with
  | nil => rfl
  | cons d1 ds =>
    cases ds with
    | nil => rfl
    | cons d2 rest2 =>
      dsimp only
      by_cases hcond : d1 = rb ∧ d2 = rb ∧ rest.takeWhile (fun d => d ≠ rb) ≠ []
      · rw [if_pos hcond, if_pos hcond]
        have hlen : rest2.length + 2 ≤ rest.length := by
          have hle := dropWhile_rb_length rest
          rw [hdrop] at hle
          simp at hle
          omega
        rw [scanAux_congr (rest.length + 1 + 1) rest2 (rest2.length + 1) (by omega) (by simp)]
        rfl
      · rw [if_neg hcond, if_neg hcond]
        rfl

/-- A full `\x7b\x7b name \x7d\x7d` token anywhere in the input makes the
scanner report at least one name. -/
theorem findTokenNames_token : ∀ (x k y : List Char), k ≠ [] → (∀ c ∈ k, c ≠ rb) →
    findTokenNames (x ++ (lb :: lb :: (k ++ rb :: rb :: y))) ≠ []
  | [], k, y, hk1, hk2 => by
    rw [List.nil_append, findTokenNames_match k y hk1 hk2]
    simp
  | c :: x2, k, y, hk1, hk2 => by
    by_cases hc : c = lb
    · subst hc
      cases hx : x2 ++ (lb :: lb :: (k ++ rb :: rb :: y)) with
      | nil => simp at hx
      | cons c2 rest =>
        rw [show (lb :: x2) ++ (lb :: lb :: (k ++ rb :: rb :: y)) =
          lb :: (x2 ++ (lb :: lb :: (k ++ rb :: rb :: y))) from rfl, hx]
        by_cases hc2 : c2 = lb
        · subst hc2
          rw [findTokenNames_lb_lb rest]
          cases hdrop : rest.dropWhile (fun d => d ≠ rb) with
          | nil =>
            dsimp only
            rw [← hx]
            exact findTokenNames_token x2 k y hk1 hk2
          | cons d1 ds =>
            cases ds with
            | nil =>
              dsimp only
              rw [← hx]
              exact findTokenNames_token x2 k y hk1 hk2
            | cons d2 rest2 =>
              dsimp only
              by_cases hcond : d1 = rb ∧ d2 = rb ∧ rest.takeWhile (fun d => d ≠ rb) ≠ []
              · rw [if_pos hcond]
                simp
              · rw [if_neg hcond, ← hx]
                exact findTokenNames_token x2 k y hk1 hk2
        · rw [findTokenNames_cons_lb (c2 :: rest) (by simp [hc2]), ← hx]
          exact findTokenNames_token x2 k y hk1 hk2
    · rw [show (c :: x2) ++ (lb :: lb :: (k ++ rb :: rb :: y)) =
        c :: (x2 ++ (lb :: lb :: (k ++ rb :: rb :: y))) from rfl,
        findTokenNames_cons_ne c _ hc]
      exact findTokenNames_token x2 k y hk1 hk2

/-- The success path of `build_workflow` on the template class: coverage
of the placeholders yields exactly the structural substitution. -/
theorem buildWorkflow_ok (t : Json) (ps : List (List Char × PValue))
    (hwft : wft t = true)
    (hps : ∀ kv ∈ ps, paramOk kv = true)
    (hcov : ∀ n ∈ phList t, ∃ v, (n, v) ∈ ps)
    (hf1 : hasSub (": True,".data) (pyDumps (substTree ps t)) = false)
    (hf2 : hasSub (": False,".data) (pyDumps (substTree ps t)) = false)
    (hf3 : hasSub (": True".data ++ [rb]) (pyDumps (substTree ps t)) = false)
    (hf4 : hasSub (": False".data ++ [rb]) (pyDumps (substTree ps t)) = false) :
    buildWorkflow t ps = .ok (substTree ps t) := by
  unfold buildWorkflow
  dsimp only
  have hwfsub : wft (substTree ps t) = true := wft_substTree ps t hps hwft
  rw [applyParams_dumps ps t hps hwft, applyFixups_id _ hf1 hf2 hf3 hf4,
    findTokenNames_dumps _ hwfsub, phList_substTree_nil ps t hps hwft hcov]
  dsimp only
  rw [jsonLoads_dumps _ (wfp_of_wft _ hwfsub)]

/-- The failure path of `build_workflow` on the template class: an
uncovered placeholder leaves build failing with a non-empty
unresolved-placeholders error. -/
theorem buildWorkflow_unresolved (t : Json) (ps : List (List Char × PValue))
    (hwft : wft t = true)
    (hps : ∀ kv ∈ ps, paramOk kv = true)
    (K : List Char) (hK : K ∈ phList t) (hmiss : ∀ v, (K, v) ∉ ps)
    (hf1 : hasSub (": True,".data) (pyDumps (substTree ps t)) = false)
    (hf2 : hasSub (": False,".data) (pyDumps (substTree ps t)) = false)
    (hf3 : hasSub (": True".data ++ [rb]) (pyDumps (substTree ps t)) = false)
    (hf4 : hasSub (": False".data ++ [rb]) (pyDumps (substTree ps t)) = false) :
    ∃ toks, buildWorkflow t ps = .error (.unresolvedPlaceholders toks) ∧ toks ≠ [] := by
  unfold buildWorkflow
  dsimp only
  have hwfsub : wft (substTree ps t) = true := wft_substTree ps t hps hwft
  rw [applyParams_dumps ps t hps hwft, applyFixups_id _ hf1 hf2 hf3 hf4,
    findTokenNames_dumps _ hwfsub]
  have hmem : K ∈ phList (substTree ps t) := phList_substTree_mem ps t K hps hwft hK hmiss
  cases hl : phList (substTree ps t) with
  | nil =>
    rw [hl] at hmem
    simp at hmem
  | cons a as =>
    dsimp only
    exact ⟨_, rfl, by simp⟩

/-- **C2, counterexample.**  The template whose only placeholder is
embedded inside a longer string value refutes the original round-trip
claim: the template-parameters scan reports `NAME` as required, yet a
parameter map covering exactly that set makes `build_workflow` fail with
the unresolved-placeholders error. -/
theorem claim2_counterexample :
    getTemplateParameters tmplEmb = ["NAME".data] ∧
    buildWorkflow tmplEmb [("NAME".data, PValue.pstr "v".data)] =
      Except.error (BuildError.unresolvedPlaceholders [fullToken "NAME".data]) :=
  ⟨rfl, rfl⟩

/-- **C2, amended.**  On templates whose placeholders each stand as an
entire quoted string (and whose substituted serialization avoids the four
Python-boolean fixup patterns), the round-trip holds: a parameter map
covering the scanned placeholder set makes `build_workflow` succeed with
a document containing zero placeholder tokens, and omitting a scanned key
makes it fail with a non-empty unresolved-placeholders error. -/
theorem claim2_amended (t : Json) (ps : List (List Char × PValue))
    (hwft : wft t = true) (hps : ∀ kv ∈ ps, paramOk kv = true)
    (hf1 : hasSub (": True,".data) (pyDumps (substTree ps t)) = false)
    (hf2 : hasSub (": False,".data) (pyDumps (substTree ps t)) = false)
    (hf3 : hasSub (": True".data ++ [rb]) (pyDumps (substTree ps t)) = false)
    (hf4 : hasSub (": False".data ++ [rb]) (pyDumps (substTree ps t)) = false) :
    ((∀ n ∈ getTemplateParameters t, ∃ v, (n, v) ∈ ps) →
      ∃ w, buildWorkflow t ps = Except.ok w ∧ findTokenNames (pyDumps w) = []) ∧
    (∀ K, K ∈ getTemplateParameters t → (∀ v, (K, v) ∉ ps) →
      ∃ toks, buildWorkflow t ps = Except.error (BuildError.unresolvedPlaceholders toks) ∧
        toks ≠ []) := by
  have hgtp : ∀ n, n ∈ getTemplateParameters t ↔ n ∈ phList t := by
    intro n
    unfold getTemplateParameters
    rw [findTokenNames_dumps t hwft]
    exact mem_dedup _ n
  constructor
  · intro hcov
    have hcov2 : ∀ n ∈ phList t, ∃ v, (n, v) ∈ ps :=
      fun n hn => hcov n ((hgtp n).mpr hn)
    refine ⟨substTree ps t, buildWorkflow_ok t ps hwft hps hcov2 hf1 hf2 hf3 hf4, ?_⟩
    rw [findTokenNames_dumps _ (wft_substTree ps t hps hwft),
      phList_substTree_nil ps t hps hwft hcov2]
  · intro K hK hmiss
    exact buildWorkflow_unresolved t ps hwft hps K ((hgtp K).mp hK) hmiss hf1 hf2 hf3 hf4

/-- Witness for the amended C2 theorem: on the two-placeholder template,
covering both keys succeeds with a token-free document, and omitting
`PROMPT` fails with a non-empty unresolved-placeholders error. -/
theorem claim2_witness :
    (∃ w, buildWorkflow tmpl1 [(tSEED, PValue.pint 1), (tPROMPT, PValue.pstr "hello".data)] =
      Except.ok w ∧ findTokenNames (pyDumps w) = []) ∧
    (∃ toks, buildWorkflow tmpl1 [(tSEED, PValue.pint 1)] =
      Except.error (BuildError.unresolvedPlaceholders toks) ∧ toks ≠ []) := by
  constructor
  · refine (claim2_amended tmpl1 [(tSEED, PValue.pint 1), (tPROMPT, PValue.pstr "hello".data)]
      (by decide) (by decide) (by decide) (by decide) (by decide) (by decide)).1 ?_
    intro n hn
    have hn2 : n = tSEED ∨ n = tPROMPT := by
      have hg : getTemplateParameters tmpl1 = [tSEED, tPROMPT] := by decide
      rw [hg] at hn
      simpa using hn
    rcases hn2 with h | h
    · exact ⟨PValue.pint 1, by simp [h]⟩
    · exact ⟨PValue.pstr "hello".data, by simp [h]⟩
  · refine (claim2_amended tmpl1 [(tSEED, PValue.pint 1)]
      (by decide) (by decide) (by decide) (by decide) (by decide) (by decide)).2
      tPROMPT (by decide) ?_
    intro v hv
    simp at hv
    exact absurd hv.1 (by decide)

/-- **C6, counterexample.**  Type fidelity fails for string values that
contain a Python-boolean fixup pattern: supplying the string
`a: True, b` for `PROMPT` produces a document whose stored string is
`a: true, b` — the fixup pass rewrites inside string values. -/
theorem claim6_counterexample :
    buildWorkflow tmpl1 [(tSEED, PValue.pint 1), (tPROMPT, PValue.pstr "a: True, b".data)] =
      Except.ok (substK tPROMPT (PValue.pstr "a: true, b".data)
        (substK tSEED (PValue.pint 1) tmpl1)) ∧
    "a: true, b".data ≠ "a: True, b".data :=
  ⟨rfl, by decide⟩

/-- **C6, amended.**  On the wellformed template class, when the
substituted serialization avoids the four fixup patterns, substitution is
exactly the structural walk replacing each covered placeholder leaf by a
value node of the parameter's own type: booleans become unquoted `jbool`
literals, integers unquoted `jint` literals, and strings re-quoted
escaped `jstr` leaves that parse back to the same string, so the result
parses as structured data with the supplied values. -/
theorem claim6_amended (t : Json) (ps : List (List Char × PValue))
    (hwft : wft t = true) (hps : ∀ kv ∈ ps, paramOk kv = true)
    (hcov : ∀ n ∈ phList t, ∃ v, (n, v) ∈ ps)
    (hf1 : hasSub (": True,".data) (pyDumps (substTree ps t)) = false)
    (hf2 : hasSub (": False,".data) (pyDumps (substTree ps t)) = false)
    (hf3 : hasSub (": True".data ++ [rb]) (pyDumps (substTree ps t)) = false)
    (hf4 : hasSub (": False".data ++ [rb]) (pyDumps (substTree ps t)) = false) :
    buildWorkflow t ps = Except.ok (substTree ps t) ∧
    applyParams (pyDumps t) ps = pyDumps (substTree ps t) :=
  ⟨buildWorkflow_ok t ps hwft hps hcov hf1 hf2 hf3 hf4, applyParams_dumps ps t hps hwft⟩

/-- Witness for the amended C6 theorem: an integer parameter and a
string parameter containing a quote character substitute with their types
preserved. -/
theorem claim6_witness :
    buildWorkflow tmpl1
      [(tSEED, PValue.pint 640), (tPROMPT, PValue.pstr "say \"hi\"".data)] =
      Except.ok (substTree
        [(tSEED, PValue.pint 640), (tPROMPT, PValue.pstr "say \"hi\"".data)] tmpl1) ∧
    applyParams (pyDumps tmpl1)
      [(tSEED, PValue.pint 640), (tPROMPT, PValue.pstr "say \"hi\"".data)] =
      pyDumps (substTree
        [(tSEED, PValue.pint 640), (tPROMPT, PValue.pstr "say \"hi\"".data)] tmpl1) := by
  refine claim6_amended tmpl1
    [(tSEED, PValue.pint 640), (tPROMPT, PValue.pstr "say \"hi\"".data)]
    (by decide) (by decide) ?_ (by decide) (by decide) (by decide) (by decide)
  intro n hn
  have hn2 : n = tSEED ∨ n = tPROMPT := by
    have hg : phList tmpl1 = [tSEED, tPROMPT] := by decide
    rw [hg] at hn
    simpa using hn
  rcases hn2 with h | h
  · exact ⟨PValue.pint 640, by simp [h]⟩
  · exact ⟨PValue.pstr "say \"hi\"".data, by simp [h]⟩

/-- **C10.**  `build_workflow` substitutes a parameter only where its
placeholder occurs as an entire quoted JSON string: when every supplied
parameter's quoted pattern is absent from the serialized template, the
substitution loop leaves the serialization unchanged, and if some
supplied key's token occurs (necessarily embedded inside a longer
string), build fails with a non-empty unresolved-placeholders error even
though the parameter map contains the key. -/
theorem claim10_embedded (t : Json) (ps : List (List Char × PValue))
    (K : List Char) (v : PValue) (hKps : (K, v) ∈ ps)
    (hK1 : K ≠ []) (hK2 : ∀ c ∈ K, c ≠ rb)
    (x y : List Char) (hembedded : pyDumps t = x ++ (lb :: lb :: (K ++ rb :: rb :: y)))
    (hnoquoted : ∀ kv ∈ ps, hasSub (quotedPh kv.1) (pyDumps t) = false)
    (hf1 : hasSub (": True,".data) (pyDumps t) = false)
    (hf2 : hasSub (": False,".data) (pyDumps t) = false)
    (hf3 : hasSub (": True".data ++ [rb]) (pyDumps t) = false)
    (hf4 : hasSub (": False".data ++ [rb]) (pyDumps t) = false) :
    applyParams (pyDumps t) ps = pyDumps t ∧
    ∃ toks, buildWorkflow t ps = Except.error (BuildError.unresolvedPlaceholders toks) ∧
      toks ≠ [] := by
  have hid := applyParams_id ps (pyDumps t) hnoquoted
  refine ⟨hid, ?_⟩
  unfold buildWorkflow
  dsimp only
  rw [hid, applyFixups_id _ hf1 hf2 hf3 hf4]
  have hne : findTokenNames (pyDumps t) ≠ [] := by
    rw [hembedded]
    exact findTokenNames_token x K y hK1 hK2
  cases hl : findTokenNames (pyDumps t) with
  | nil => exact absurd hl hne
  | cons a as =>
    dsimp only
    exact ⟨_, rfl, by simp⟩

/-- Witness for the C10 theorem at the embedded-placeholder template. -/
theorem claim10_witness :
    applyParams (pyDumps tmplEmb) [("NAME".data, PValue.pstr "v".data)] = pyDumps tmplEmb ∧
    ∃ toks, buildWorkflow tmplEmb [("NAME".data, PValue.pstr "v".data)] =
      Except.error (BuildError.unresolvedPlaceholders toks) ∧ toks ≠ [] :=
  claim10_embedded tmplEmb [("NAME".data, PValue.pstr "v".data)] "NAME".data
    (PValue.pstr "v".data) (by simp) (by decide) (by decide)
    ([lb] ++ "\"1\": ".data ++ [lb] ++
      "\"class_type\": \"LoadVideo\", \"inputs\": ".data ++ [lb] ++ "\"path\": \"pre".data)
    ("post\"".data ++ [rb, rb, rb])
    (by decide) (by decide) (by decide) (by decide) (by decide) (by decide)

end Multitalk
